import Mathlib

/-!
# afftest: the request multiplexer of `main.go`

A shallow embedding of `newSem`, `newMultiplexer` (the handler closure) and
`processRequest` as an interleaving state machine: one handler goroutine and
one goroutine per spawned worker, scheduled by an arbitrary list of actions.

Modelling conventions.

* A buffered Go channel of `struct{}` is its element count together with its
  capacity (`Sem`); a send is enabled only below capacity, a receive only
  above zero.  The channel `errs` carries values, so it is the FIFO list of
  its buffered elements.  All capacities are those of buffered channels
  (positive); the theorems that need it say so.
* A blocked goroutine is a step that returns `none`.
* The standard library is a parameter (`Env`): `net/url.Parse` and the
  outcome of `cli.Do` followed by `io.ReadAll`.  The outcome of the fetch
  made by worker `i` is `Env.fetch i u`; it is arbitrary, so a failure that
  the transport produces because the context was cancelled is one of the
  outcomes covered by quantifying over `Env`.
* Logging is dropped.  The JSON encoder writes to a `ResponseWriter` that
  accepts every write, so `Encode` does not fail; the decoded request body is
  the input (`none` when `Decode` fails).
* One request is modelled, so `limitInbound` starts empty.
-/

namespace Afftest

/-! ## Constants (`main.go` 18-25) -/

def iLimit : Nat := 100
def oLimit : Nat := 4
def errLimit : Nat := 1
def urlCountLimit : Nat := 20

/-! ## `newSem` (`main.go` 149-157) -/

/-- The channel `sem` of `newSem`: `size` is its capacity, `count` the number
of buffered elements. -/
structure Sem where
  size : Nat
  count : Nat
deriving DecidableEq

/-- Go `newSem(size)`: the channel `make(chan struct{}, size)`, initially empty. -/
def newSem (size : Nat) : Sem := ⟨size, 0⟩

/-- Calling the function returned by `newSem`: `sem <- struct{}{}`.
`none` when the send blocks (buffer full). -/
def Sem.acquire (sem : Sem) : Option Sem :=
  if sem.count < sem.size then some { sem with count := sem.count + 1 } else none

/-- Calling the function returned by an acquire: `<-sem`.
`none` when the receive blocks (buffer empty). -/
def Sem.release (sem : Sem) : Option Sem :=
  if 0 < sem.count then some { sem with count := sem.count - 1 } else none

/-- The two operations a holder of the limiter can attempt. -/
inductive SemOp where
  | acquire
  | release
deriving DecidableEq

/-- One attempted operation. -/
def Sem.apply (sem : Sem) : SemOp → Option Sem
  | .acquire => sem.acquire
  | .release => sem.release

/-- A sequence of operations, each of which must be enabled when it runs. -/
def Sem.run : List SemOp → Sem → Option Sem
  | [], sem => some sem
  | op :: ops, sem => (sem.apply op).bind (Sem.run ops)

/-! ## Environment and data -/

/-- The parameters of `newMultiplexer`. -/
structure Config where
  iLimit : Nat
  oLimit : Nat
  errLimit : Nat
deriving DecidableEq

/-- The configuration `main` passes: `newMultiplexer(iLimit, oLimit, errLimit, ...)`. -/
def mainConfig : Config := ⟨iLimit, oLimit, errLimit⟩

/-- The library functions the code calls.
`urlParse u` is the error text of `urlpkg.Parse(u)` (`none` when it returns no
error).  `fetch i u` is what `cli.Do` followed by `io.ReadAll` yields for the
request worker `i` makes to `u`: the error text or the body. -/
structure Env where
  urlParse : String → Option String
  fetch : Nat → String → Except String String

/-- What is written after the status line. -/
inductive Body where
  | empty
  | error (msg : String)
  | results (rs : List String)
deriving DecidableEq

/-- Status code and body of the HTTP response. -/
structure Response where
  status : Nat
  body : Body
deriving DecidableEq

/-- The error of `handleErr`: `fmt.Errorf("build request to %s: %w", u, err)`. -/
def wrapErr (u cause : String) : String :=
  "build request to " ++ u ++ ": " ++ cause

/-- Where a `processRequest` goroutine stands. -/
inductive WorkerPC where
  -- spawned, before `http.NewRequestWithContext`
  | ready
  -- request built, before `cli.Do`
  | built
  -- body read, before `results[i] = ...`
  | fetched (body : String)
  -- inside `handleErr`, before `cancel()`
  | failed (cause : String)
  -- inside `handleErr`, at `errs <- ...`
  | sending (msg : String)
  -- function body left, deferred `decr()` pending
  | unwinding
  -- returned
  | done
deriving DecidableEq

/-- One `processRequest` goroutine: its arguments `i`, `u` and its position. -/
structure Worker where
  i : Nat
  u : String
  pc : WorkerPC
deriving DecidableEq

/-- Where the handler goroutine stands. -/
inductive HandlerPC where
  -- before `limitInbound()`
  | entry
  -- inbound slot held; decode and checks (lines 72-94) ahead
  | validating
  -- head of `for i := range urls`
  | dispatch (i : Nat)
  -- head of `for i := 0; i < oLimit; i++`
  | join (j : Nat)
  -- at the `select`
  | collect
  -- response written, deferred calls pending; `batch` tells whether
  -- `defer cancel()` was registered
  | leaving (batch : Bool)
  -- returned
  | finished
deriving DecidableEq

/-- The state of one request. -/
structure State where
  request : Option (List String)
  pc : HandlerPC
  limitInbound : Sem
  urls : List String
  incr : Sem
  cancelled : Bool
  results : List String
  errs : List String
  workers : List Worker
  response : Option Response
deriving DecidableEq

/-- Lines 72-89: decode, size check, URL check.  `none` is the 400 answer. -/
def validate (env : Env) (request : Option (List String)) : Option (List String) :=
  match request with
  | none => none
  | some urls =>
    if urls.length > urlCountLimit then none
    else if urls.all (fun u => (env.urlParse u).isNone) then some urls
    else none

/-- The state when the handler is entered. -/
def init (cfg : Config) (request : Option (List String)) : State :=
  { request := request, pc := .entry, limitInbound := newSem cfg.iLimit, urls := [],
    incr := newSem cfg.oLimit, cancelled := false, results := [], errs := [],
    workers := [], response := none }

/-- The next step of the handler goroutine (`main.go` 70-121).  Code between
two channel operations touches nothing a worker can see and is one step with
the operation that follows it: `incr()` and the `go` statement, and the
deferred `cancel()` and inbound release on return. -/
def stepHandler (cfg : Config) (env : Env) (s : State) : Option State :=
  match s.pc with
  | .entry =>
    match s.limitInbound.acquire with
    | some sem => some { s with limitInbound := sem, pc := .validating }
    | none => none
  | .validating =>
    match validate env s.request with
    | none => some { s with response := some ⟨400, .empty⟩, pc := .leaving false }
    | some urls =>
      some { s with urls := urls, incr := newSem cfg.oLimit, cancelled := false,
                    results := List.replicate urls.length "", errs := [],
                    pc := .dispatch 0 }
  | .dispatch i =>
    match s.urls[i]? with
    | some u =>
      match s.incr.acquire with
      | some sem =>
        some { s with incr := sem, workers := s.workers ++ [⟨i, u, .ready⟩],
                      pc := .dispatch (i + 1) }
      | none => none
    | none => some { s with pc := .join 0 }
  | .join j =>
    if j < cfg.oLimit then
      match s.incr.acquire with
      | some sem => some { s with incr := sem, pc := .join (j + 1) }
      | none => none
    else some { s with pc := .collect }
  | .collect =>
    match s.errs with
    | err :: rest =>
      some { s with errs := rest, response := some ⟨500, .error err⟩, pc := .leaving true }
    | [] => some { s with response := some ⟨200, .results s.results⟩, pc := .leaving true }
  | .leaving batch =>
    match s.limitInbound.release with
    | some sem =>
      some { s with limitInbound := sem, cancelled := s.cancelled || batch, pc := .finished }
    | none => none
  | .finished => none

/-- Worker `k` moves to `pc`. -/
def State.setPC (s : State) (k : Nat) (w : Worker) (pc : WorkerPC) : State :=
  { s with workers := s.workers.set k { w with pc := pc } }

/-- The next step of the `k`-th spawned `processRequest` (`main.go` 124-147).
`http.NewRequestWithContext` gets a valid method and a non-nil context, so it
fails exactly when its own call of `url.Parse` does, with that error.  The
three failure exits all go through `handleErr`; `cli.Do` and `io.ReadAll`
are one step, whose outcome is `env.fetch`. -/
def stepWorker (cfg : Config) (env : Env) (k : Nat) (s : State) : Option State :=
  match s.workers[k]? with
  | none => none
  | some w =>
    match w.pc with
    | .ready =>
      match env.urlParse w.u with
      | some err => some (s.setPC k w (.failed err))
      | none => some (s.setPC k w .built)
    | .built =>
      match env.fetch w.i w.u with
      | .error err => some (s.setPC k w (.failed err))
      | .ok body => some (s.setPC k w (.fetched body))
    | .fetched body =>
      some { s.setPC k w .unwinding with results := s.results.set w.i body }
    | .failed err =>
      some { s.setPC k w (.sending (wrapErr w.u err)) with cancelled := true }
    | .sending msg =>
      if s.errs.length < cfg.errLimit then
        some { s.setPC k w .unwinding with errs := s.errs ++ [msg] }
      else none
    | .unwinding =>
      match s.incr.release with
      | some sem => some { s.setPC k w .done with incr := sem }
      | none => none
    | .done => none

/-- A scheduling decision: which goroutine takes its next step. -/
inductive Action where
  | handler
  | worker (k : Nat)
deriving DecidableEq

/-- One step of the system; `none` when the chosen goroutine is blocked or
has returned. -/
def step (cfg : Config) (env : Env) : Action → State → Option State
  | .handler, s => stepHandler cfg env s
  | .worker k, s => stepWorker cfg env k s

/-- Running a schedule: every action must be enabled when its turn comes. -/
def exec (cfg : Config) (env : Env) : List Action → State → Option State
  | [], s => some s
  | a :: as, s => (step cfg env a s).bind (exec cfg env as)

/-- Workers that were spawned and have not returned. -/
def inFlight (ws : List Worker) : Nat :=
  (ws.map fun w => if w.pc = .done then 0 else 1).sum


/-! ## Properties of states -/

/-- The request of worker `i` to `u` ends in `handleErr` with cause `e`. -/
def Fails (env : Env) (i : Nat) (u e : String) : Prop :=
  env.urlParse u = some e ∨ (env.urlParse u = none ∧ env.fetch i u = .error e)

/-- The request of worker `i` to `u` yields the body `b`. -/
def Succeeds (env : Env) (i : Nat) (u b : String) : Prop :=
  env.urlParse u = none ∧ env.fetch i u = .ok b

/-- The message `m` sits in `errs` or was written to the response. -/
def Reported (s : State) (m : String) : Prop :=
  m ∈ s.errs ∨ s.response = some ⟨500, .error m⟩

/-- The message `m` is the wrapped failure of some URL of the batch. -/
def Origin (env : Env) (urls : List String) (m : String) : Prop :=
  ∃ k u e, urls[k]? = some u ∧ Fails env k u e ∧ m = wrapErr u e

/-- Decidable form of `∃ e, Fails env i u e`. -/
def failsB (env : Env) (i : Nat) (u : String) : Bool :=
  (env.urlParse u).isSome ||
    (match env.fetch i u with
     | .error _ => true
     | .ok _ => false)

/-- One for a worker that went through `handleErr` and completed its send, else zero. -/
def hasReported (env : Env) (w : Worker) : Nat :=
  if failsB env w.i w.u = true ∧ (w.pc = .unwinding ∨ w.pc = .done) then 1 else 0

/-- The number of workers that completed a send to `errs`. -/
def reports (env : Env) (ws : List Worker) : Nat :=
  (ws.map (hasReported env)).sum

/-- What the position of a worker says about the path it took. -/
def WorkerOK (env : Env) (s : State) (w : Worker) : Prop :=
  match w.pc with
  | .ready => True
  | .built => env.urlParse w.u = none
  | .fetched b => Succeeds env w.i w.u b
  | .failed e => Fails env w.i w.u e
  | .sending m => ∃ e, Fails env w.i w.u e ∧ m = wrapErr w.u e
  | .unwinding =>
    (∃ b, Succeeds env w.i w.u b ∧ s.results[w.i]? = some b) ∨
    (∃ e, Fails env w.i w.u e ∧ Reported s (wrapErr w.u e))
  | .done =>
    (∃ b, Succeeds env w.i w.u b ∧ s.results[w.i]? = some b) ∨
    (∃ e, Fails env w.i w.u e ∧ Reported s (wrapErr w.u e))

/-- The response of a batch that went through dispatch and join. -/
def Answered (env : Env) (s : State) : Prop :=
  (s.response = some ⟨200, .results s.results⟩ ∧
    ∀ k u, s.urls[k]? = some u → ∃ b, Succeeds env k u b ∧ s.results[k]? = some b) ∨
  (∃ m, s.response = some ⟨500, .error m⟩ ∧ Origin env s.urls m)

/-- What holds at each position of the handler. -/
def Phase (cfg : Config) (env : Env) (s : State) : Prop :=
  match s.pc with
  | .entry =>
    s.workers = [] ∧ s.errs = [] ∧ s.response = none ∧ s.limitInbound.count = 0 ∧
    s.urls = [] ∧ s.incr.count = 0
  | .validating =>
    s.workers = [] ∧ s.errs = [] ∧ s.response = none ∧ s.limitInbound.count = 1 ∧
    s.urls = [] ∧ s.incr.count = 0
  | .dispatch i =>
    i = s.workers.length ∧ s.incr.count = inFlight s.workers ∧ s.response = none ∧
    s.limitInbound.count = 1 ∧ validate env s.request = some s.urls ∧
    s.errs.length = reports env s.workers
  | .join j =>
    s.workers.length = s.urls.length ∧ s.incr.count = inFlight s.workers + j ∧
    s.response = none ∧ s.limitInbound.count = 1 ∧ validate env s.request = some s.urls ∧
    s.errs.length = reports env s.workers
  | .collect =>
    s.workers.length = s.urls.length ∧ inFlight s.workers = 0 ∧
    s.response = none ∧ s.limitInbound.count = 1 ∧ validate env s.request = some s.urls ∧
    s.errs.length = reports env s.workers
  | .leaving true =>
    s.workers.length = s.urls.length ∧ inFlight s.workers = 0 ∧
    Answered env s ∧ s.limitInbound.count = 1 ∧ validate env s.request = some s.urls ∧
    reports env s.workers ≤ cfg.errLimit
  | .leaving false =>
    s.workers = [] ∧ s.response = some ⟨400, .empty⟩ ∧ s.limitInbound.count = 1 ∧
    validate env s.request = none
  | .finished =>
    inFlight s.workers = 0 ∧ s.limitInbound.count = 0 ∧
    ((s.workers = [] ∧ s.response = some ⟨400, .empty⟩ ∧ validate env s.request = none) ∨
     (s.workers.length = s.urls.length ∧ Answered env s ∧
       validate env s.request = some s.urls ∧ reports env s.workers ≤ cfg.errLimit))

/-- The inductive invariant of the state machine. -/
structure Inv (cfg : Config) (env : Env) (s : State) : Prop where
  incrSize : s.incr.size = cfg.oLimit
  inSize : s.limitInbound.size = cfg.iLimit
  resLen : s.results.length = s.urls.length
  wf : ∀ (k : Nat) (w : Worker), s.workers[k]? = some w → w.i = k ∧ s.urls[k]? = some w.u
  incrLe : s.incr.count ≤ cfg.oLimit
  errsLe : s.errs.length ≤ cfg.errLimit
  path : ∀ (k : Nat) (w : Worker), s.workers[k]? = some w → WorkerOK env s w
  origin : ∀ m ∈ s.errs, Origin env s.urls m
  phase : Phase cfg env s

/-! ## Termination measure -/

/-- Steps a worker still has to take, at most. -/
def WorkerPC.remaining : WorkerPC → Nat
  | .ready => 5
  | .built => 4
  | .fetched _ => 2
  | .failed _ => 3
  | .sending _ => 2
  | .unwinding => 1
  | .done => 0

/-- The length of the decoded request (0 when it does not decode). -/
def batchSize : Option (List String) → Nat
  | none => 0
  | some urls => urls.length

/-- Steps the handler still has to take, counting six for every worker it
has yet to spawn (one for the spawn, five for the worker). -/
def handlerRemaining (cfg : Config) (s : State) : Nat :=
  match s.pc with
  | .entry => 6 * batchSize s.request + cfg.oLimit + 6
  | .validating => 6 * batchSize s.request + cfg.oLimit + 5
  | .dispatch i => 6 * (s.urls.length - i) + cfg.oLimit + 4
  | .join j => (cfg.oLimit - j) + 3
  | .collect => 2
  | .leaving _ => 1
  | .finished => 0

/-- A bound on the number of steps left in the whole system. -/
def remaining (cfg : Config) (s : State) : Nat :=
  handlerRemaining cfg s + (s.workers.map fun w => w.pc.remaining).sum

/-! ## Notions used in the statements -/

/-- Workers that are at the call of the fetch capability (`cli.Do`). -/
def fetching (ws : List Worker) : Nat :=
  (ws.map fun w => if w.pc = .built then 1 else 0).sum

/-- The handler has left its join loop (`main.go` 100-102). -/
def pastJoin (s : State) : Prop :=
  s.pc = .collect ∨ s.pc = .leaving true ∨
    (s.pc = .finished ∧ s.response ≠ some ⟨400, .empty⟩)

/-- The handler is past validation and has not written a response: the
decoded list is the batch being dispatched. -/
def dispatching (s : State) : Prop :=
  (∃ i, s.pc = .dispatch i) ∨ (∃ j, s.pc = .join j) ∨ s.pc = .collect

/-- The message the action `a` puts into `errs` in state `s`: that of a
worker standing at `errs <- ...` while the buffer has room. -/
def sent (cfg : Config) (a : Action) (s : State) : Option String :=
  match a with
  | .handler => none
  | .worker k =>
    match s.workers[k]? with
    | none => none
    | some w =>
      match w.pc with
      | .sending msg => if s.errs.length < cfg.errLimit then some msg else none
      | _ => none

/-- The messages put into `errs` along a schedule, in the order of the sends. -/
def recorded (cfg : Config) (env : Env) : List Action → State → List String
  | [], _ => []
  | a :: as, s =>
    match step cfg env a s with
    | none => []
    | some s' => (sent cfg a s).toList ++ recorded cfg env as s'

/-- The handler has not yet run its `select` on `errs`. -/
def beforeSelect : HandlerPC → Bool
  | .entry => true
  | .validating => true
  | .dispatch _ => true
  | .join _ => true
  | .collect => true
  | .leaving _ => false
  | .finished => false

/-- The validity the spec asks of a batch entry, in the spec's words "scheme +
structure per standard URL grammar", as far as the scheme goes: the string
starts with a scheme (a letter, then letters, digits, `+`, `-` or `.`)
followed by `:` (RFC 3986, 3.1).  It is not taken from the code, which asks
`url.Parse` only; a string without a scheme is not a valid URL in the sense
of the spec. -/
def hasScheme (u : String) : Bool :=
  match u.toList.span (fun c => c.isAlphanum || c == '+' || c == '-' || c == '.') with
  | (c :: _, ':' :: _) => c.isAlpha
  | _ => false

/-! ## Example inputs -/

/-- Every URL parses and every fetch succeeds. -/
def envAll : Env :=
  ⟨fun _ => none, fun _ u => .ok ("body of " ++ u)⟩

/-- Every URL parses and every fetch fails. -/
def envDown : Env :=
  ⟨fun _ => none, fun _ _ => .error "connection refused"⟩

/-- Every URL parses; the fetch of worker 1 fails, the others succeed. -/
def envOneDown : Env :=
  ⟨fun _ => none,
   fun i u => if i = 1 then .error "connection refused" else .ok ("body of " ++ u)⟩

/-- The parser rejects `"::"` and accepts every other string, the empty
string among them; every fetch succeeds.  On these two strings it is how
`url.Parse` of the Go library behaves: `url.Parse("::")` is the error
"missing protocol scheme", `url.Parse("")` is the empty URL and no error. -/
def envStrict : Env :=
  ⟨fun u => if u = "::" then some "missing protocol scheme" else none,
   fun _ u => .ok ("body of " ++ u)⟩

/-- A batch of two URLs. -/
def twoURLs : List String := ["http://a", "http://b"]

/-- Handler up to the join loop, then worker 0 to its end, then worker 1 to
its end, then the handler to its return (both workers on the success path). -/
def scheduleTwo : List Action :=
  [.handler, .handler, .handler, .handler, .handler,
   .worker 0, .worker 0, .worker 0, .worker 0,
   .worker 1, .worker 1, .worker 1, .worker 1,
   .handler, .handler, .handler, .handler, .handler, .handler, .handler]

/-- As `scheduleTwo`, with worker 1 on the failure path (one step more). -/
def scheduleOneDown : List Action :=
  [.handler, .handler, .handler, .handler, .handler,
   .worker 0, .worker 0, .worker 0, .worker 0,
   .worker 1, .worker 1, .worker 1, .worker 1, .worker 1,
   .handler, .handler, .handler, .handler, .handler, .handler, .handler]

/-- Handler up to the join loop; worker 0 fails, reports and returns; worker
1 fails and reaches its send; the handler re-acquires three times. -/
def scheduleStuck : List Action :=
  [.handler, .handler, .handler, .handler, .handler,
   .worker 0, .worker 0, .worker 0, .worker 0, .worker 0,
   .worker 1, .worker 1, .worker 1,
   .handler, .handler, .handler]

/-- Handler up to the join loop for a batch of one URL, the worker to its
end on the success path, then the handler to its return. -/
def scheduleOne : List Action :=
  [.handler, .handler, .handler, .handler,
   .worker 0, .worker 0, .worker 0, .worker 0,
   .handler, .handler, .handler, .handler, .handler, .handler, .handler]

/-- The handler alone, from entry to return, for an empty batch. -/
def scheduleEmpty : List Action :=
  [.handler, .handler, .handler, .handler, .handler, .handler, .handler, .handler,
   .handler, .handler]

/-! ## Lemmas on lists -/

theorem sum_map_set {α : Type} (f : α → Nat) (l : List α) (k : Nat) (w x : α)
    (h : l[k]? = some w) : ((l.set k x).map f).sum + f w = (l.map f).sum + f x := by
  induction l generalizing k with
  | nil => simp at h
  | cons a t ih =>
    cases k with
    | zero =>
      simp at h
      subst h
      simp only [List.set, List.map_cons, List.sum_cons]
      omega
    | succ k =>
      simp at h
      have := ih k h
      simp only [List.set, List.map_cons, List.sum_cons]
      omega

theorem inFlight_set (ws : List Worker) (k : Nat) (w : Worker) (pc : WorkerPC)
    (h : ws[k]? = some w) :
    inFlight (ws.set k { w with pc := pc }) + (if w.pc = .done then 0 else 1)
      = inFlight ws + (if pc = .done then 0 else 1) := by
  unfold inFlight
  exact sum_map_set (fun w => if w.pc = .done then 0 else 1) ws k w _ h

theorem inFlight_append_ready (ws : List Worker) (i : Nat) (u : String) :
    inFlight (ws ++ [⟨i, u, .ready⟩]) = inFlight ws + 1 := by
  simp [inFlight]

theorem reports_set (env : Env) (ws : List Worker) (k : Nat) (w : Worker) (pc : WorkerPC)
    (h : ws[k]? = some w) :
    reports env (ws.set k { w with pc := pc }) + hasReported env w
      = reports env ws + hasReported env { w with pc := pc } := by
  unfold reports
  exact sum_map_set (hasReported env) ws k w _ h

theorem reports_append_ready (env : Env) (ws : List Worker) (i : Nat) (u : String) :
    reports env (ws ++ [⟨i, u, .ready⟩]) = reports env ws := by
  simp [reports, hasReported]

theorem failsB_of_fails {env : Env} {i : Nat} {u e : String} (h : Fails env i u e) :
    failsB env i u = true := by
  unfold failsB
  rcases h with h | ⟨-, h⟩
  · simp [h]
  · simp [h]

theorem failsB_of_succeeds {env : Env} {i : Nat} {u b : String} (h : Succeeds env i u b) :
    failsB env i u = false := by
  unfold failsB
  simp [h.1, h.2]

theorem inFlight_zero {ws : List Worker} (h : inFlight ws = 0) :
    ∀ w ∈ ws, w.pc = .done := by
  intro w hw
  unfold inFlight at h
  rw [List.sum_eq_zero_iff] at h
  have := h _ (List.mem_map_of_mem _ hw)
  by_contra hne
  simp [hne] at this

theorem inFlight_pos {ws : List Worker} {k : Nat} {w : Worker}
    (h : ws[k]? = some w) (hpc : w.pc ≠ .done) : 0 < inFlight ws := by
  by_contra h0
  have hz : inFlight ws = 0 := by omega
  exact hpc (inFlight_zero hz w (List.mem_iff_getElem?.mpr ⟨k, h⟩))

/-! ## The invariant is inductive -/

theorem workerOK_mono {env : Env} {s s' : State} {w : Worker}
    (hres : ∀ b, s.results[w.i]? = some b → s'.results[w.i]? = some b)
    (hrep : ∀ m, Reported s m → Reported s' m)
    (h : WorkerOK env s w) : WorkerOK env s' w := by
  unfold WorkerOK at h ⊢
  split <;> simp_all
  · rcases h with ⟨b, hb, hr⟩ | ⟨e, he, hr⟩
    · exact Or.inl ⟨b, hb, hres b hr⟩
    · exact Or.inr ⟨e, he, hrep _ hr⟩
  · rcases h with ⟨b, hb, hr⟩ | ⟨e, he, hr⟩
    · exact Or.inl ⟨b, hb, hres b hr⟩
    · exact Or.inr ⟨e, he, hrep _ hr⟩

theorem inv_init (cfg : Config) (env : Env) (request : Option (List String)) :
    Inv cfg env (init cfg request) := by
  constructor <;> simp [init, newSem, Phase]

theorem workerOK_same {env : Env} {s s' : State} {w : Worker}
    (hres : s'.results = s.results) (herrs : s'.errs = s.errs)
    (hresp : s'.response = s.response)
    (h : WorkerOK env s w) : WorkerOK env s' w := by
  apply workerOK_mono _ _ h
  · intro b hb; rw [hres]; exact hb
  · intro m hm; unfold Reported at hm ⊢; rw [herrs, hresp]; exact hm

theorem inv_stepHandler {cfg : Config} {env : Env} {s s' : State}
    (hI : Inv cfg env s) (h : stepHandler cfg env s = some s') : Inv cfg env s' := by
  obtain ⟨hsz, hin, hres, hwf, hle, herr, hpath, horig, hph⟩ := hI
  unfold stepHandler at h
  split at h
  · -- entry
    rename_i hpc
    simp only [Phase, hpc] at hph
    unfold Sem.acquire at h
    split at h
    · rename_i sem hsem
      split at hsem
      · simp at hsem h
        subst hsem
        subst h
        constructor <;> simp_all [Phase]
      · simp at hsem
    · simp at h
  · -- validating
    rename_i hpc
    simp only [Phase, hpc] at hph
    split at h
    · simp at h
      subst h
      constructor <;> simp_all [Phase]
    · simp at h
      subst h
      constructor <;> simp_all [Phase, newSem, inFlight, reports]
  · -- dispatch
    rename_i i hpc
    simp only [Phase, hpc] at hph
    obtain ⟨hi, hcnt, hresp, hinb, hval, hrp⟩ := hph
    split at h
    · rename_i u hu
      unfold Sem.acquire at h
      split at h
      · rename_i sem hsem
        split at hsem
        · rename_i hlt
          simp at hsem h
          subst hsem
          subst h
          have hget : ∀ (k : Nat) (w : Worker),
              (s.workers ++ [⟨i, u, .ready⟩])[k]? = some w →
                s.workers[k]? = some w ∨ (k = i ∧ w = ⟨i, u, .ready⟩) := by
            intro k w hk
            rw [List.getElem?_append] at hk
            split at hk
            · exact Or.inl hk
            · rename_i hge
              right
              have hk0 : k - s.workers.length = 0 := by
                by_contra hne
                rw [List.getElem?_eq_none (by simp; omega)] at hk
                simp at hk
              rw [hk0] at hk
              simp at hk
              exact ⟨by omega, hk.symm⟩
          refine ⟨hsz, hin, hres, ?_, ?_, herr, ?_, horig, ?_⟩
          · intro k w hk
            rcases hget k w hk with h1 | ⟨h1, h2⟩
            · exact hwf k w h1
            · subst h2; subst h1; exact ⟨rfl, hu⟩
          · show s.incr.count + 1 ≤ cfg.oLimit
            omega
          · intro k w hk
            rcases hget k w hk with h1 | ⟨h1, h2⟩
            · exact workerOK_same rfl rfl rfl (hpath k w h1)
            · subst h2; simp [WorkerOK]
          · simp only [Phase]
            refine ⟨by simp [hi], ?_, hresp, hinb, hval, ?_⟩
            · rw [inFlight_append_ready]
              show s.incr.count + 1 = _
              omega
            · rw [reports_append_ready]; exact hrp
        · simp at hsem
      · simp at h
    · rename_i hnone
      simp at h
      subst h
      refine ⟨hsz, hin, hres, hwf, hle, herr,
        fun k w hk => workerOK_same rfl rfl rfl (hpath k w hk), horig, ?_⟩
      simp only [Phase]
      refine ⟨?_, by simpa using hcnt, hresp, hinb, hval, hrp⟩
      have h1 : s.urls.length ≤ s.workers.length := by
        rw [List.getElem?_eq_none_iff] at hnone; omega
      have h2 : s.workers.length ≤ s.urls.length := by
        by_contra hgt
        have hlt : s.urls.length < s.workers.length := by omega
        obtain ⟨w, hw⟩ : ∃ w, s.workers[s.urls.length]? = some w :=
          ⟨s.workers[s.urls.length], List.getElem?_eq_getElem hlt⟩
        have := (hwf _ _ hw).2
        rw [List.getElem?_eq_none (le_refl _)] at this
        simp at this
      omega
  · -- join
    rename_i j hpc
    simp only [Phase, hpc] at hph
    obtain ⟨hlen, hcnt, hresp, hinb, hval, hrp⟩ := hph
    split at h
    · unfold Sem.acquire at h
      split at h
      · rename_i sem hsem
        split at hsem
        · simp at hsem h
          subst hsem
          subst h
          refine ⟨hsz, hin, hres, hwf, ?_, herr,
            fun k w hk => workerOK_same rfl rfl rfl (hpath k w hk), horig, ?_⟩
          · show s.incr.count + 1 ≤ cfg.oLimit
            omega
          · simp only [Phase]
            refine ⟨hlen, ?_, hresp, hinb, hval, hrp⟩
            show s.incr.count + 1 = _
            omega
        · simp at hsem
      · simp at h
    · rename_i hge
      simp at h
      subst h
      refine ⟨hsz, hin, hres, hwf, hle, herr,
        fun k w hk => workerOK_same rfl rfl rfl (hpath k w hk), horig, ?_⟩
      simp only [Phase]
      refine ⟨hlen, ?_, hresp, hinb, hval, hrp⟩
      omega
  · -- collect
    rename_i hpc
    simp only [Phase, hpc] at hph
    obtain ⟨hlen, hfl, hresp, hinb, hval, hrp⟩ := hph
    split at h
    · rename_i err rest herrs
      simp at h
      subst h
      refine ⟨hsz, hin, hres, hwf, hle, ?_, ?_, ?_, ?_⟩
      · show rest.length ≤ cfg.errLimit
        rw [herrs] at herr
        simp at herr
        omega
      · intro k w hk
        apply workerOK_mono _ _ (hpath k w hk)
        · intro b hb; exact hb
        · intro m hm
          unfold Reported at hm ⊢
          rw [herrs, hresp] at hm
          simp at hm
          rcases hm with rfl | hm
          · exact Or.inr rfl
          · exact Or.inl hm
      · intro m hm
        exact horig m (by rw [herrs]; exact List.mem_cons_of_mem _ hm)
      · simp only [Phase]
        refine ⟨hlen, hfl, Or.inr ⟨err, rfl, horig err (by rw [herrs]; simp)⟩, hinb, hval,
          by omega⟩
    · rename_i herrs
      simp at h
      subst h
      refine ⟨hsz, hin, hres, hwf, hle, herr, ?_, horig, ?_⟩
      · intro k w hk
        apply workerOK_mono _ _ (hpath k w hk)
        · intro b hb; exact hb
        · intro m hm
          unfold Reported at hm
          rw [herrs, hresp] at hm
          simp at hm
      · simp only [Phase]
        refine ⟨hlen, hfl, Or.inl ⟨rfl, ?_⟩, hinb, hval, by omega⟩
        intro k u hu
        have hlt : k < s.workers.length := by
          rw [hlen]; exact (List.getElem?_eq_some.mp hu).1
        have hw : s.workers[k]? = some s.workers[k] := List.getElem?_eq_getElem hlt
        have hdone := inFlight_zero hfl _ (List.mem_iff_getElem?.mpr ⟨k, hw⟩)
        have hok := hpath k _ hw
        obtain ⟨hwi, hwu⟩ := hwf k _ hw
        rw [hu] at hwu
        simp at hwu
        unfold WorkerOK at hok
        rw [hdone] at hok
        simp only [hwi, ← hwu] at hok
        rcases hok with hb | ⟨e, -, hr⟩
        · exact hb
        · unfold Reported at hr
          rw [herrs, hresp] at hr
          simp at hr
  · -- leaving
    rename_i batch hpc
    unfold Sem.release at h
    split at h
    · rename_i sem hsem
      split at hsem
      · simp at hsem h
        subst hsem
        subst h
        cases batch
        · simp only [Phase, hpc] at hph
          obtain ⟨hws, hresp, hinb, hval⟩ := hph
          refine ⟨hsz, hin, hres, hwf, hle, herr,
            fun k w hk => workerOK_same rfl rfl rfl (hpath k w hk), horig, ?_⟩
          simp only [Phase]
          refine ⟨by rw [hws]; rfl, by show s.limitInbound.count - 1 = 0; omega,
            Or.inl ⟨hws, hresp, hval⟩⟩
        · simp only [Phase, hpc] at hph
          obtain ⟨hlen, hfl, hans, hinb, hval, hrp⟩ := hph
          refine ⟨hsz, hin, hres, hwf, hle, herr,
            fun k w hk => workerOK_same rfl rfl rfl (hpath k w hk), horig, ?_⟩
          simp only [Phase]
          refine ⟨hfl, by show s.limitInbound.count - 1 = 0; omega,
            Or.inr ⟨hlen, hans, hval, hrp⟩⟩
      · simp at hsem
    · simp at h
  · simp at h

theorem getElem?_set_worker {ws : List Worker} {k k' : Nat} {w w' nw : Worker}
    (hk : ws[k]? = some w) (h : (ws.set k nw)[k']? = some w') :
    (k' = k ∧ w' = nw) ∨ (k' ≠ k ∧ ws[k']? = some w') := by
  rw [List.getElem?_set] at h
  split at h
  · rename_i heq
    subst heq
    have hlt : k < ws.length := (List.getElem?_eq_some.mp hk).1
    simp [hlt] at h
    exact Or.inl ⟨rfl, h.symm⟩
  · rename_i hne
    exact Or.inr ⟨fun e => hne e.symm, h⟩

/-- A worker that has not returned exists only while the handler dispatches
or joins. -/
theorem live_phase {cfg : Config} {env : Env} {s : State} {k : Nat} {w : Worker}
    (hph : Phase cfg env s) (hk : s.workers[k]? = some w) (hlive : w.pc ≠ .done) :
    (∃ i, s.pc = .dispatch i) ∨ (∃ j, s.pc = .join j) := by
  have hpos := inFlight_pos hk hlive
  have hne : s.workers ≠ [] := by
    intro h; rw [h] at hk; simp at hk
  unfold Phase at hph
  split at hph
  · exact absurd hph.1 hne
  · exact absurd hph.1 hne
  · rename_i i h; exact Or.inl ⟨i, h⟩
  · rename_i j h; exact Or.inr ⟨j, h⟩
  · omega
  · omega
  · exact absurd hph.1 hne
  · omega

/-- Preservation for a step that moves worker `k` from `w.pc` to `pc`. -/
theorem inv_worker {cfg : Config} {env : Env} {s s' : State} {k : Nat} {w : Worker}
    {pc : WorkerPC} (hI : Inv cfg env s) (hk : s.workers[k]? = some w)
    (hlive : w.pc ≠ .done)
    (hws : s'.workers = s.workers.set k { w with pc := pc })
    (hreq : s'.request = s.request) (hpc : s'.pc = s.pc)
    (hlim : s'.limitInbound = s.limitInbound) (hurls : s'.urls = s.urls)
    (hsize : s'.incr.size = s.incr.size)
    (hcount : s'.incr.count + 1 = s.incr.count + (if pc = .done then 0 else 1))
    (hresp : s'.response = s.response)
    (hresLen : s'.results.length = s.results.length)
    (hresOther : ∀ j, j ≠ k → s'.results[j]? = s.results[j]?)
    (herrs : s'.errs = s.errs ∨
      ∃ m, s.errs.length < cfg.errLimit ∧ s'.errs = s.errs ++ [m] ∧ Origin env s.urls m)
    (hrep : s'.errs.length + hasReported env w
      = s.errs.length + hasReported env { w with pc := pc })
    (hok : WorkerOK env s' { w with pc := pc }) : Inv cfg env s' := by
  obtain ⟨hsz, hin, hres, hwf, hle, herr, hpath, horig, hph⟩ := hI
  have hfl := inFlight_set s.workers k w pc hk
  rw [← hws] at hfl
  simp only [hlive, if_false] at hfl
  have hrs := reports_set env s.workers k w pc hk
  rw [← hws] at hrs
  refine ⟨by rw [hsize]; exact hsz, by rw [hlim]; exact hin, by rw [hresLen, hurls]; exact hres,
    ?_, ?_, ?_, ?_, ?_, ?_⟩
  · intro k' w' hk'
    rw [hws] at hk'
    rw [hurls]
    rcases getElem?_set_worker hk hk' with ⟨h1, h2⟩ | ⟨-, h2⟩
    · subst h1; subst h2; exact hwf _ w hk
    · exact hwf _ _ h2
  · split at hcount <;> omega
  · rcases herrs with h | ⟨m, hlt, h, -⟩
    · rw [h]; exact herr
    · rw [h]; simp; omega
  · intro k' w' hk'
    rw [hws] at hk'
    rcases getElem?_set_worker hk hk' with ⟨h1, h2⟩ | ⟨hne, h2⟩
    · subst h2; exact hok
    · apply workerOK_mono _ _ (hpath _ _ h2)
      · intro b hb
        have := (hwf _ _ h2).1
        rw [this] at hb ⊢
        rw [hresOther _ hne]; exact hb
      · intro m hm
        unfold Reported at hm ⊢
        rw [hresp]
        rcases hm with hm | hm
        · left
          rcases herrs with h | ⟨m', -, h, -⟩
          · rw [h]; exact hm
          · rw [h]; exact List.mem_append_left _ hm
        · exact Or.inr hm
  · intro m hm
    rw [hurls]
    rcases herrs with h | ⟨m', -, h, ho⟩
    · rw [h] at hm; exact horig m hm
    · rw [h] at hm
      simp at hm
      rcases hm with hm | rfl
      · exact horig m hm
      · exact ho
  · rcases live_phase hph hk hlive with ⟨i, hi⟩ | ⟨j, hj⟩
    · simp only [Phase, hi] at hph
      unfold Phase
      rw [hpc, hi]
      simp only
      obtain ⟨h1, h2, h3, h4, h5, h6⟩ := hph
      refine ⟨by rw [hws]; simpa using h1, by omega, by rw [hresp]; exact h3,
        by rw [hlim]; exact h4, by rw [hreq, hurls]; exact h5, by omega⟩
    · simp only [Phase, hj] at hph
      unfold Phase
      rw [hpc, hj]
      simp only
      obtain ⟨h1, h2, h3, h4, h5, h6⟩ := hph
      refine ⟨by rw [hws, hurls]; simpa using h1, by omega, by rw [hresp]; exact h3,
        by rw [hlim]; exact h4, by rw [hreq, hurls]; exact h5, by omega⟩

theorem inv_stepWorker {cfg : Config} {env : Env} {s s' : State} {k : Nat}
    (hI : Inv cfg env s) (h : stepWorker cfg env k s = some s') : Inv cfg env s' := by
  unfold stepWorker at h
  split at h
  · simp at h
  · rename_i w hk
    have hwf := hI.wf k w hk
    have hok := hI.path k w hk
    split at h
    · -- ready
      rename_i hpc
      split at h
      · rename_i err herr
        simp at h; subst h
        refine inv_worker hI hk (by simp [hpc]) rfl rfl rfl rfl rfl rfl (by simp [State.setPC])
          rfl rfl (fun _ _ => rfl) (Or.inl rfl)
          (by simp [State.setPC, hasReported, hpc]) ?_
        simp only [WorkerOK]
        exact Or.inl herr
      · rename_i hnone
        simp at h; subst h
        refine inv_worker hI hk (by simp [hpc]) rfl rfl rfl rfl rfl rfl (by simp [State.setPC])
          rfl rfl (fun _ _ => rfl) (Or.inl rfl)
          (by simp [State.setPC, hasReported, hpc]) ?_
        simp only [WorkerOK]
        exact hnone
    · -- built
      rename_i hpc
      simp only [WorkerOK, hpc] at hok
      split at h
      · rename_i err herr
        simp at h; subst h
        refine inv_worker hI hk (by simp [hpc]) rfl rfl rfl rfl rfl rfl (by simp [State.setPC])
          rfl rfl (fun _ _ => rfl) (Or.inl rfl)
          (by simp [State.setPC, hasReported, hpc]) ?_
        simp only [WorkerOK]
        exact Or.inr ⟨hok, herr⟩
      · rename_i body hbody
        simp at h; subst h
        refine inv_worker hI hk (by simp [hpc]) rfl rfl rfl rfl rfl rfl (by simp [State.setPC])
          rfl rfl (fun _ _ => rfl) (Or.inl rfl)
          (by simp [State.setPC, hasReported, hpc]) ?_
        simp only [WorkerOK]
        exact ⟨hok, hbody⟩
    · -- fetched
      rename_i body hpc
      simp only [WorkerOK, hpc] at hok
      simp at h; subst h
      have hlt : w.i < s.results.length := by
        rw [hI.resLen, hwf.1]; exact (List.getElem?_eq_some.mp hwf.2).1
      refine inv_worker hI hk (by simp [hpc]) rfl rfl rfl rfl rfl rfl (by simp [State.setPC])
        rfl (by simp [State.setPC]) ?_ (Or.inl rfl)
        (by simp [State.setPC, hasReported, hpc, failsB_of_succeeds hok]) ?_
      · intro j hj
        show (s.results.set w.i body)[j]? = _
        rw [hwf.1]
        exact List.getElem?_set_ne (fun e => hj e.symm)
      · simp only [WorkerOK]
        refine Or.inl ⟨body, hok, ?_⟩
        show (s.results.set w.i body)[w.i]? = _
        exact List.getElem?_set_self hlt
    · -- failed
      rename_i err hpc
      simp only [WorkerOK, hpc] at hok
      simp at h; subst h
      refine inv_worker hI hk (by simp [hpc]) rfl rfl rfl rfl rfl rfl (by simp [State.setPC])
        rfl rfl (fun _ _ => rfl) (Or.inl rfl)
          (by simp [State.setPC, hasReported, hpc]) ?_
      simp only [WorkerOK]
      exact ⟨err, hok, rfl⟩
    · -- sending
      rename_i msg hpc
      simp only [WorkerOK, hpc] at hok
      obtain ⟨e, hfail, hmsg⟩ := hok
      split at h
      · rename_i hlt
        simp at h; subst h
        refine inv_worker hI hk (by simp [hpc]) rfl rfl rfl rfl rfl rfl (by simp [State.setPC])
          rfl rfl (fun _ _ => rfl) (Or.inr ⟨msg, hlt, rfl, ?_⟩)
          (by simp [State.setPC, hasReported, hpc, failsB_of_fails hfail]) ?_
        · exact ⟨k, w.u, e, hwf.2, by rw [← hwf.1]; exact hfail, hmsg⟩
        · simp only [WorkerOK]
          refine Or.inr ⟨e, hfail, Or.inl ?_⟩
          show _ ∈ s.errs ++ [msg]
          rw [hmsg]; simp
      · simp at h
    · -- unwinding
      rename_i hpc
      simp only [WorkerOK, hpc] at hok
      unfold Sem.release at h
      split at h
      · rename_i sem hsem
        split at hsem
        · rename_i hpos
          simp at hsem h
          subst hsem; subst h
          refine inv_worker hI hk (by simp [hpc]) rfl rfl rfl rfl rfl rfl ?_
            rfl rfl (fun _ _ => rfl) (Or.inl rfl)
            (by simp [State.setPC, hasReported, hpc]) ?_
          · show s.incr.count - 1 + 1 = _
            simp; omega
          · simp only [WorkerOK]
            exact hok
        · simp at hsem
      · simp at h
    · simp at h

theorem inv_step {cfg : Config} {env : Env} {s s' : State} {a : Action}
    (hI : Inv cfg env s) (h : step cfg env a s = some s') : Inv cfg env s' := by
  cases a with
  | handler => exact inv_stepHandler hI h
  | worker k => exact inv_stepWorker hI h

theorem inv_exec {cfg : Config} {env : Env} {as : List Action} {s s' : State}
    (hI : Inv cfg env s) (h : exec cfg env as s = some s') : Inv cfg env s' := by
  induction as generalizing s with
  | nil => simp [exec] at h; subst h; exact hI
  | cons a as ih =>
    simp only [exec] at h
    cases hs : step cfg env a s with
    | none => rw [hs] at h; simp at h
    | some s1 =>
      rw [hs] at h
      exact ih (inv_step hI hs) h

/-- The invariant holds in every state a schedule reaches. -/
theorem inv_reach {cfg : Config} {env : Env} {request : Option (List String)}
    {as : List Action} {s : State}
    (h : exec cfg env as (init cfg request) = some s) : Inv cfg env s :=
  inv_exec (inv_init cfg env request) h

/-! ## Validation -/

theorem validate_some {env : Env} {request : Option (List String)} {urls : List String}
    (h : validate env request = some urls) :
    request = some urls ∧ urls.length ≤ urlCountLimit ∧ ∀ u ∈ urls, env.urlParse u = none := by
  unfold validate at h
  split at h
  · simp at h
  · rename_i l
    split at h
    · simp at h
    · rename_i hlen
      split at h
      · rename_i hall
        simp at h
        subst h
        refine ⟨rfl, by omega, ?_⟩
        intro u hu
        have := (List.all_eq_true.mp hall) u hu
        simpa using this
      · simp at h

theorem validate_ok {env : Env} {urls : List String} (hlen : urls.length ≤ urlCountLimit)
    (hall : ∀ u ∈ urls, env.urlParse u = none) : validate env (some urls) = some urls := by
  unfold validate
  have h1 : ¬ urls.length > urlCountLimit := by omega
  have h2 : urls.all (fun u => (env.urlParse u).isNone) = true := by
    rw [List.all_eq_true]
    intro u hu
    simp [hall u hu]
  simp [h1, h2]

theorem validate_long {env : Env} {urls : List String} (hlen : urlCountLimit < urls.length) :
    validate env (some urls) = none := by
  unfold validate
  simp [hlen]

theorem validate_bad {env : Env} {urls : List String} {k : Nat} {u err : String}
    (hk : urls[k]? = some u) (hbad : env.urlParse u = some err) :
    validate env (some urls) = none := by
  cases h : validate env (some urls) with
  | none => rfl
  | some l =>
    obtain ⟨h1, -, h3⟩ := validate_some h
    simp at h1
    subst h1
    have := h3 u (List.mem_iff_getElem?.mpr ⟨k, hk⟩)
    rw [hbad] at this
    simp at this

/-! ## The request is never modified -/

theorem stepHandler_request {cfg : Config} {env : Env} {s s' : State}
    (h : stepHandler cfg env s = some s') : s'.request = s.request := by
  unfold stepHandler at h
  split at h <;> (try split at h) <;> (try split at h) <;> simp at h <;> subst h <;> rfl

theorem stepWorker_request {cfg : Config} {env : Env} {s s' : State} {k : Nat}
    (h : stepWorker cfg env k s = some s') : s'.request = s.request := by
  unfold stepWorker at h
  split at h
  · simp at h
  · split at h <;> (try split at h) <;> simp at h <;> subst h <;> rfl

theorem step_request {cfg : Config} {env : Env} {s s' : State} {a : Action}
    (h : step cfg env a s = some s') : s'.request = s.request := by
  cases a with
  | handler => exact stepHandler_request h
  | worker k => exact stepWorker_request h

theorem exec_request {cfg : Config} {env : Env} {as : List Action} {s s' : State}
    (h : exec cfg env as s = some s') : s'.request = s.request := by
  induction as generalizing s with
  | nil => simp [exec] at h; subst h; rfl
  | cons a as ih =>
    simp only [exec] at h
    cases hs : step cfg env a s with
    | none => rw [hs] at h; simp at h
    | some s1 =>
      rw [hs] at h
      rw [ih h, step_request hs]

/-! ## Every step consumes the measure -/

theorem remaining_stepHandler {cfg : Config} {env : Env} {s s' : State}
    (h : stepHandler cfg env s = some s') : remaining cfg s' < remaining cfg s := by
  unfold stepHandler at h
  split at h
  · rename_i hpc
    split at h
    · simp at h; subst h
      simp [remaining, handlerRemaining, hpc]
    · simp at h
  · rename_i hpc
    split at h
    · simp at h; subst h
      simp [remaining, handlerRemaining, hpc]
    · rename_i urls hv
      simp at h; subst h
      have := (validate_some hv).1
      simp [remaining, handlerRemaining, hpc, this, batchSize]
  · rename_i i hpc
    split at h
    · rename_i u hu
      split at h
      · simp at h; subst h
        have hlt : i < s.urls.length := (List.getElem?_eq_some.mp hu).1
        simp [remaining, handlerRemaining, hpc, WorkerPC.remaining]
        omega
      · simp at h
    · simp at h; subst h
      simp [remaining, handlerRemaining, hpc]
      omega
  · rename_i j hpc
    split at h
    · rename_i hj
      split at h
      · simp at h; subst h
        simp [remaining, handlerRemaining, hpc]
        omega
      · simp at h
    · simp at h; subst h
      simp [remaining, handlerRemaining, hpc]
  · rename_i hpc
    split at h <;> simp at h <;> subst h <;> simp [remaining, handlerRemaining, hpc]
  · rename_i b hpc
    split at h
    · simp at h; subst h
      simp [remaining, handlerRemaining, hpc]
    · simp at h
  · simp at h

theorem remaining_setPC {cfg : Config} {s s' : State} {k : Nat} {w : Worker} {pc : WorkerPC}
    (hk : s.workers[k]? = some w) (hws : s'.workers = s.workers.set k { w with pc := pc })
    (hpc : s'.pc = s.pc) (hreq : s'.request = s.request) (hurls : s'.urls = s.urls)
    (hlt : pc.remaining < w.pc.remaining) : remaining cfg s' < remaining cfg s := by
  have := sum_map_set (fun w : Worker => w.pc.remaining) s.workers k w { w with pc := pc } hk
  rw [← hws] at this
  simp only at this
  have hh : handlerRemaining cfg s' = handlerRemaining cfg s := by
    unfold handlerRemaining
    rw [hpc, hreq, hurls]
  unfold remaining
  rw [hh]
  omega

theorem remaining_stepWorker {cfg : Config} {env : Env} {s s' : State} {k : Nat}
    (h : stepWorker cfg env k s = some s') : remaining cfg s' < remaining cfg s := by
  unfold stepWorker at h
  split at h
  · simp at h
  · rename_i w hk
    split at h
    · rename_i hpc
      split at h <;> simp at h <;> subst h <;>
        exact remaining_setPC hk rfl rfl rfl rfl (by simp [hpc, WorkerPC.remaining])
    · rename_i hpc
      split at h <;> simp at h <;> subst h <;>
        exact remaining_setPC hk rfl rfl rfl rfl (by simp [hpc, WorkerPC.remaining])
    · rename_i body hpc
      simp at h; subst h
      exact remaining_setPC hk rfl rfl rfl rfl (by simp [hpc, WorkerPC.remaining])
    · rename_i err hpc
      simp at h; subst h
      exact remaining_setPC hk rfl rfl rfl rfl (by simp [hpc, WorkerPC.remaining])
    · rename_i msg hpc
      split at h
      · simp at h; subst h
        exact remaining_setPC hk rfl rfl rfl rfl (by simp [hpc, WorkerPC.remaining])
      · simp at h
    · rename_i hpc
      split at h
      · simp at h; subst h
        exact remaining_setPC hk rfl rfl rfl rfl (by simp [hpc, WorkerPC.remaining])
      · simp at h
    · simp at h

theorem remaining_step {cfg : Config} {env : Env} {s s' : State} {a : Action}
    (h : step cfg env a s = some s') : remaining cfg s' < remaining cfg s := by
  cases a with
  | handler => exact remaining_stepHandler h
  | worker k => exact remaining_stepWorker h

theorem remaining_exec {cfg : Config} {env : Env} {as : List Action} {s s' : State}
    (h : exec cfg env as s = some s') : as.length + remaining cfg s' ≤ remaining cfg s := by
  induction as generalizing s with
  | nil => simp [exec] at h; subst h; simp
  | cons a as ih =>
    simp only [exec] at h
    cases hs : step cfg env a s with
    | none => rw [hs] at h; simp at h
    | some s1 =>
      rw [hs] at h
      have h1 := ih h
      have h2 := remaining_step hs
      simp only [List.length_cons]
      omega

/-- No schedule from the initial state is longer than the initial measure. -/
theorem exec_length {cfg : Config} {env : Env} {request : Option (List String)}
    {as : List Action} {s : State}
    (h : exec cfg env as (init cfg request) = some s) :
    as.length ≤ 6 * batchSize request + cfg.oLimit + 6 := by
  have := remaining_exec h
  simp [remaining, handlerRemaining, init] at this
  omega

/-! ## Progress -/

theorem inFlight_pos_exists {ws : List Worker} (h : 0 < inFlight ws) :
    ∃ (k : Nat) (w : Worker), ws[k]? = some w ∧ w.pc ≠ .done := by
  by_contra hno
  push_neg at hno
  have hz : inFlight ws = 0 := by
    unfold inFlight
    rw [List.sum_eq_zero_iff]
    intro x hx
    simp only [List.mem_map] at hx
    obtain ⟨w, hw, rfl⟩ := hx
    obtain ⟨k, hk⟩ := List.mem_iff_getElem?.mp hw
    simp [hno k w hk]
  omega

/-- A worker that has not returned can step unless it is blocked on `errs`. -/
theorem worker_enabled {cfg : Config} {env : Env} {s : State} {k : Nat} {w : Worker}
    (hk : s.workers[k]? = some w) (hlive : w.pc ≠ .done)
    (hsend : ∀ m, w.pc = .sending m → s.errs.length < cfg.errLimit)
    (hcnt : 0 < s.incr.count) : ∃ s', stepWorker cfg env k s = some s' := by
  unfold stepWorker
  rw [hk]
  simp only
  cases hpc : w.pc with
  | ready =>
    simp only
    cases env.urlParse w.u <;> simp
  | built =>
    simp only
    cases env.fetch w.i w.u <;> simp
  | fetched b => simp
  | failed e => simp
  | sending m => simp [hsend m hpc]
  | unwinding => simp [Sem.release, hcnt]
  | done => exact absurd hpc hlive

/-- Unless a worker is blocked on its send to `errs`, a handler that has not
returned leaves some goroutine able to step. -/
theorem progress {cfg : Config} {env : Env} {s : State} (hI : Inv cfg env s)
    (hi : 0 < cfg.iLimit) (ho : 0 < cfg.oLimit)
    (hsend : ∀ (k : Nat) (w : Worker) (m : String), s.workers[k]? = some w →
      w.pc = .sending m → s.errs.length < cfg.errLimit)
    (hfin : s.pc ≠ .finished) : ∃ a s', step cfg env a s = some s' := by
  have hph := hI.phase
  have hsz := hI.incrSize
  have hle := hI.incrLe
  have hw : 0 < s.incr.count → 0 < inFlight s.workers → ∃ a s', step cfg env a s = some s' := by
    intro hc hf
    obtain ⟨k, w, hk, hlive⟩ := inFlight_pos_exists hf
    obtain ⟨s', hs'⟩ := @worker_enabled cfg env s k w hk hlive
      (fun m hm => hsend k w m hk hm) hc
    exact ⟨.worker k, s', hs'⟩
  cases hpc : s.pc with
  | entry =>
    simp only [Phase, hpc] at hph
    refine ⟨.handler, ?_⟩
    have : s.limitInbound.count < s.limitInbound.size := by rw [hI.inSize, hph.2.2.2.1]; exact hi
    simp [step, stepHandler, hpc, Sem.acquire, this]
  | validating =>
    refine ⟨.handler, ?_⟩
    simp only [step, stepHandler, hpc]
    cases validate env s.request <;> simp
  | dispatch i =>
    simp only [Phase, hpc] at hph
    cases hu : s.urls[i]? with
    | none => exact ⟨.handler, by simp [step, stepHandler, hpc, hu]⟩
    | some u =>
      by_cases hc : s.incr.count < s.incr.size
      · exact ⟨.handler, by simp [step, stepHandler, hpc, hu, Sem.acquire, hc]⟩
      · exact hw (by omega) (by omega)
  | join j =>
    simp only [Phase, hpc] at hph
    by_cases hj : j < cfg.oLimit
    · by_cases hc : s.incr.count < s.incr.size
      · exact ⟨.handler, by simp [step, stepHandler, hpc, hj, Sem.acquire, hc]⟩
      · exact hw (by omega) (by omega)
    · exact ⟨.handler, by simp [step, stepHandler, hpc, hj]⟩
  | collect =>
    refine ⟨.handler, ?_⟩
    simp only [step, stepHandler, hpc]
    cases s.errs <;> simp
  | leaving b =>
    refine ⟨.handler, ?_⟩
    have : 0 < s.limitInbound.count := by
      cases b <;> simp only [Phase, hpc] at hph <;> omega
    simp [step, stepHandler, hpc, Sem.release, this]
  | finished => exact absurd hpc hfin

/-! ## What a written response says -/

theorem response_cases {cfg : Config} {env : Env} {s : State} {r : Response}
    (hI : Inv cfg env s) (hr : s.response = some r) :
    (r = ⟨400, .empty⟩ ∧ validate env s.request = none ∧ s.workers = []) ∨
    (validate env s.request = some s.urls ∧ Answered env s ∧
      s.workers.length = s.urls.length ∧ inFlight s.workers = 0 ∧
      reports env s.workers ≤ cfg.errLimit) := by
  have hph := hI.phase
  unfold Phase at hph
  split at hph
  · rw [hph.2.2.1] at hr; simp at hr
  · rw [hph.2.2.1] at hr; simp at hr
  · rw [hph.2.2.1] at hr; simp at hr
  · rw [hph.2.2.1] at hr; simp at hr
  · rw [hph.2.2.1] at hr; simp at hr
  · obtain ⟨h1, h2, h3, -, h5, h6⟩ := hph
    exact Or.inr ⟨h5, h3, h1, h2, h6⟩
  · obtain ⟨h1, h2, -, h4⟩ := hph
    rw [h2] at hr
    simp at hr
    exact Or.inl ⟨hr.symm, h4, h1⟩
  · obtain ⟨h1, -, h3 | h3⟩ := hph
    · obtain ⟨h4, h5, h6⟩ := h3
      rw [h5] at hr
      simp at hr
      exact Or.inl ⟨hr.symm, h6, h4⟩
    · obtain ⟨h4, h5, h6, h7⟩ := h3
      exact Or.inr ⟨h6, h5, h4, h1, h7⟩

theorem answered_response {env : Env} {s : State} (h : Answered env s) :
    ∃ r, s.response = some r := by
  rcases h with ⟨h, -⟩ | ⟨m, h, -⟩
  · exact ⟨_, h⟩
  · exact ⟨_, h⟩

theorem finished_response {cfg : Config} {env : Env} {s : State}
    (hI : Inv cfg env s) (hfin : s.pc = .finished) : ∃ r, s.response = some r := by
  have hph := hI.phase
  simp only [Phase, hfin] at hph
  obtain ⟨-, -, h | h⟩ := hph
  · exact ⟨_, h.2.1⟩
  · exact answered_response h.2.1

/-- In a state reached from a request that validates, `urls` is the request
once the handler is past validation. -/
theorem answered_urls {env : Env} {s : State} {urls : List String}
    (hreq : s.request = some urls) (hv : validate env s.request = some s.urls) :
    s.urls = urls := by
  have := (validate_some hv).1
  rw [hreq] at this
  simp at this
  exact this.symm

/-- While a worker has not returned, the batch is validated, no response is
written and `errs` holds one message per completed send. -/
theorem live_validated {cfg : Config} {env : Env} {s : State} {k : Nat} {w : Worker}
    (hI : Inv cfg env s) (hk : s.workers[k]? = some w) (hlive : w.pc ≠ .done) :
    validate env s.request = some s.urls ∧ s.response = none ∧
      s.errs.length = reports env s.workers ∧ 0 < s.incr.count := by
  have hph := hI.phase
  have hpos := inFlight_pos hk hlive
  rcases live_phase hph hk hlive with ⟨i, hi'⟩ | ⟨j, hj⟩
  · simp only [Phase, hi'] at hph
    exact ⟨hph.2.2.2.2.1, hph.2.2.1, hph.2.2.2.2.2, by omega⟩
  · simp only [Phase, hj] at hph
    exact ⟨hph.2.2.2.2.1, hph.2.2.1, hph.2.2.2.2.2, by omega⟩

/-! ## C1: all fetches succeed -/

/-- C1. For every batch of at most 20 URLs that all pass `url.Parse`, and a
fetch capability that succeeds for every URL, every schedule of handler and
workers is finite, is never stuck before the handler has returned, and the
only response ever written is 200 with the result array, of the length of the
batch, whose entry `i` is the body fetched for the URL at index `i`. -/
theorem happy_path (cfg : Config) (env : Env) (urls : List String)
    (hi : 0 < cfg.iLimit) (ho : 0 < cfg.oLimit)
    (hlen : urls.length ≤ urlCountLimit)
    (hv : ∀ u ∈ urls, env.urlParse u = none)
    (hf : ∀ i u, urls[i]? = some u → ∃ b, env.fetch i u = .ok b)
    (as : List Action) (s : State)
    (hrun : exec cfg env as (init cfg (some urls)) = some s) :
    as.length ≤ 6 * urls.length + cfg.oLimit + 6 ∧
    (s.pc ≠ .finished → ∃ a s', step cfg env a s = some s') ∧
    (s.pc = .finished → s.response = some ⟨200, .results s.results⟩) ∧
    (∀ r, s.response = some r →
      r = ⟨200, .results s.results⟩ ∧ s.results.length = urls.length ∧
      ∀ i u b, urls[i]? = some u → env.fetch i u = .ok b → s.results[i]? = some b) := by
  have hI := inv_reach hrun
  have hreq : s.request = some urls := exec_request hrun
  have hval : validate env (some urls) = some urls := validate_ok hlen hv
  have hnf : ∀ k u e, urls[k]? = some u → ¬ Fails env k u e := by
    intro k u e hk hfail
    rcases hfail with h | ⟨-, h⟩
    · rw [hv u (List.mem_iff_getElem?.mpr ⟨k, hk⟩)] at h; simp at h
    · obtain ⟨b, hb⟩ := hf k u hk
      rw [hb] at h; simp at h
  have hresp : ∀ r, s.response = some r →
      r = ⟨200, .results s.results⟩ ∧ s.results.length = urls.length ∧
      ∀ i u b, urls[i]? = some u → env.fetch i u = .ok b → s.results[i]? = some b := by
    intro r hr
    rcases response_cases hI hr with ⟨-, h, -⟩ | ⟨h1, h2, -⟩
    · rw [hreq, hval] at h; simp at h
    · have hu := answered_urls hreq h1
      rcases h2 with ⟨h3, h4⟩ | ⟨m, -, k, u, e, hk, hfail, -⟩
      · rw [h3] at hr
        simp at hr
        refine ⟨hr.symm, by rw [hI.resLen, hu], ?_⟩
        intro i u b hiu hb
        rw [← hu] at hiu
        obtain ⟨b', hs, hres⟩ := h4 i u hiu
        have : b' = b := by
          have := hs.2
          rw [hb] at this
          simp at this
          exact this.symm
        rw [← this]; exact hres
      · rw [hu] at hk
        exact absurd hfail (hnf k u e hk)
  refine ⟨by simpa [batchSize] using exec_length hrun, ?_, ?_, hresp⟩
  · intro hfin
    refine progress hI hi ho ?_ hfin
    intro k w m hk hpc
    have hok := hI.path k w hk
    simp only [WorkerOK, hpc] at hok
    obtain ⟨e, hfail, -⟩ := hok
    obtain ⟨hwi, hwu⟩ := hI.wf k w hk
    rw [hwi] at hfail
    have hv' := (live_validated hI hk (by rw [hpc]; simp)).1
    rw [answered_urls hreq hv'] at hwu
    exact absurd hfail (hnf k w.u e hwu)
  · intro hfin
    obtain ⟨r, hr⟩ := finished_response hI hfin
    rw [hr, (hresp r hr).1]

/-! ## C4: exactly one fetch fails -/

theorem reports_zero {env : Env} {ws : List Worker}
    (h : ∀ (k : Nat) (w : Worker), ws[k]? = some w → hasReported env w = 0) :
    reports env ws = 0 := by
  unfold reports
  rw [List.sum_eq_zero_iff]
  intro x hx
  simp only [List.mem_map] at hx
  obtain ⟨w, hw, rfl⟩ := hx
  obtain ⟨k, hk⟩ := List.mem_iff_getElem?.mp hw
  exact h k w hk

/-- C4. For every batch of at most 20 URLs that all pass `url.Parse`, in which
the fetch for the URL `uf` at index `kf` fails with cause `e` and every other
fetch succeeds, every schedule is finite, is never stuck before the handler
has returned, and the only response ever written is 500 with the body
`{"error": m}`, `m = "build request to " ++ uf ++ ": " ++ e`; the result
array is never the response. -/
theorem single_failure (cfg : Config) (env : Env) (urls : List String)
    (kf : Nat) (uf e : String)
    (hi : 0 < cfg.iLimit) (ho : 0 < cfg.oLimit) (he : 0 < cfg.errLimit)
    (hlen : urls.length ≤ urlCountLimit)
    (hv : ∀ u ∈ urls, env.urlParse u = none)
    (hkf : urls[kf]? = some uf) (hfe : env.fetch kf uf = .error e)
    (hf : ∀ i u, urls[i]? = some u → i ≠ kf → ∃ b, env.fetch i u = .ok b)
    (as : List Action) (s : State)
    (hrun : exec cfg env as (init cfg (some urls)) = some s) :
    as.length ≤ 6 * urls.length + cfg.oLimit + 6 ∧
    (s.pc ≠ .finished → ∃ a s', step cfg env a s = some s') ∧
    (s.pc = .finished →
      s.response = some ⟨500, .error ("build request to " ++ uf ++ ": " ++ e)⟩) ∧
    (∀ r, s.response = some r →
      r = ⟨500, .error ("build request to " ++ uf ++ ": " ++ e)⟩) := by
  have hI := inv_reach hrun
  have hreq : s.request = some urls := exec_request hrun
  have hval : validate env (some urls) = some urls := validate_ok hlen hv
  have hone : ∀ k u e', urls[k]? = some u → Fails env k u e' → k = kf ∧ u = uf ∧ e' = e := by
    intro k u e' hk hfail
    rcases hfail with h | ⟨-, h⟩
    · rw [hv u (List.mem_iff_getElem?.mpr ⟨k, hk⟩)] at h; simp at h
    · by_cases hkk : k = kf
      · subst hkk
        rw [hkf] at hk
        simp at hk
        subst hk
        rw [hfe] at h
        simp at h
        exact ⟨rfl, rfl, h.symm⟩
      · obtain ⟨b, hb⟩ := hf k u hk hkk
        rw [hb] at h; simp at h
  have hresp : ∀ r, s.response = some r →
      r = ⟨500, .error ("build request to " ++ uf ++ ": " ++ e)⟩ := by
    intro r hr
    rcases response_cases hI hr with ⟨-, h, -⟩ | ⟨h1, h2, -⟩
    · rw [hreq, hval] at h; simp at h
    · have hu := answered_urls hreq h1
      rcases h2 with ⟨-, h4⟩ | ⟨m, h3, k, u, e', hk, hfail, hm⟩
      · rw [hu] at h4
        obtain ⟨b, hs, -⟩ := h4 kf uf hkf
        have := hs.2
        rw [hfe] at this
        simp at this
      · rw [hu] at hk
        obtain ⟨-, h6, h7⟩ := hone k u e' hk hfail
        subst h6; subst h7
        rw [h3] at hr
        simp at hr
        rw [← hr, hm]
        rfl
  refine ⟨by simpa [batchSize] using exec_length hrun, ?_, ?_, hresp⟩
  · intro hfin
    refine progress hI hi ho ?_ hfin
    intro k w m hk hpc
    obtain ⟨hv', -, hcnt, -⟩ := live_validated hI hk (by rw [hpc]; simp)
    have hu := answered_urls hreq hv'
    have hok := hI.path k w hk
    simp only [WorkerOK, hpc] at hok
    obtain ⟨e', hfail, -⟩ := hok
    obtain ⟨hwi, hwu⟩ := hI.wf k w hk
    rw [hwi] at hfail
    rw [hu] at hwu
    have hkk := (hone k w.u e' hwu hfail).1
    have hz : reports env s.workers = 0 := by
      apply reports_zero
      intro k' w' hk'
      unfold hasReported
      split
      · rename_i hc
        obtain ⟨hwi', hwu'⟩ := hI.wf k' w' hk'
        rw [hu] at hwu'
        exfalso
        by_cases hkk' : k' = kf
        · have : w' = w := by
            rw [hkk', ← hkk, hk] at hk'
            simp at hk'
            exact hk'.symm
          rw [this, hpc] at hc
          simp at hc
        · obtain ⟨b, hb⟩ := hf k' w'.u hwu' hkk'
          have := @failsB_of_succeeds env w'.i w'.u b
            ⟨hv _ (List.mem_iff_getElem?.mpr ⟨k', hwu'⟩), by rw [hwi']; exact hb⟩
          rw [this] at hc
          simp at hc
      · rfl
    omega
  · intro hfin
    obtain ⟨r, hr⟩ := finished_response hI hfin
    rw [hr, hresp r hr]

/-! ## C5: the outbound cap -/

theorem fetching_le_inFlight (ws : List Worker) : fetching ws ≤ inFlight ws := by
  induction ws with
  | nil => simp [fetching, inFlight]
  | cons w t ih =>
    simp only [fetching, inFlight, List.map_cons, List.sum_cons] at ih ⊢
    have : (if w.pc = WorkerPC.built then 1 else 0) ≤ (if w.pc = WorkerPC.done then 0 else 1) := by
      cases w.pc <;> simp
    omega

theorem inFlight_le {cfg : Config} {env : Env} {s : State} (hI : Inv cfg env s) :
    inFlight s.workers ≤ cfg.oLimit := by
  have hph := hI.phase
  have hle := hI.incrLe
  unfold Phase at hph
  split at hph
  · rw [hph.1]; simp [inFlight]
  · rw [hph.1]; simp [inFlight]
  · omega
  · omega
  · omega
  · omega
  · rw [hph.1]; simp [inFlight]
  · omega

/-- C5. In every state that any schedule reaches, for every request and every
outcome of the fetches, the number of `processRequest` workers that were
spawned and have not returned is at most `oLimit`, and so is the number of
workers at the call of the fetch capability. -/
theorem outbound_cap (cfg : Config) (env : Env) (request : Option (List String))
    (as : List Action) (s : State)
    (hrun : exec cfg env as (init cfg request) = some s) :
    inFlight s.workers ≤ cfg.oLimit ∧ fetching s.workers ≤ cfg.oLimit := by
  have h1 := inFlight_le (inv_reach hrun)
  have h2 := fetching_le_inFlight s.workers
  exact ⟨h1, by omega⟩

/-! ## C10: the join loop is a barrier -/

theorem done_blocked {cfg : Config} {env : Env} {s : State}
    (h : ∀ w ∈ s.workers, w.pc = .done) (k : Nat) : stepWorker cfg env k s = none := by
  unfold stepWorker
  cases hk : s.workers[k]? with
  | none => rfl
  | some w =>
    have := h w (List.mem_iff_getElem?.mpr ⟨k, hk⟩)
    simp [this]

/-- C10. In every reachable state in which the handler has left its join
loop, every URL of the batch had its worker spawned, every worker has
returned (its deferred release included), and no worker can take a step any
more: the `select` on `errs` and the encoding of `results` see the final
values. -/
theorem join_barrier (cfg : Config) (env : Env) (request : Option (List String))
    (as : List Action) (s : State)
    (hrun : exec cfg env as (init cfg request) = some s) (hpast : pastJoin s) :
    s.workers.length = s.urls.length ∧ (∀ w ∈ s.workers, w.pc = .done) ∧
    (∀ k, stepWorker cfg env k s = none) := by
  have hI := inv_reach hrun
  have hph := hI.phase
  have key : s.workers.length = s.urls.length ∧ inFlight s.workers = 0 := by
    rcases hpast with h | h | ⟨h, hr⟩
    · simp only [Phase, h] at hph; exact ⟨hph.1, hph.2.1⟩
    · simp only [Phase, h] at hph; exact ⟨hph.1, hph.2.1⟩
    · simp only [Phase, h] at hph
      obtain ⟨h1, -, h3 | h3⟩ := hph
      · exact absurd h3.2.1 hr
      · exact ⟨h3.1, h1⟩
  exact ⟨key.1, inFlight_zero key.2, done_blocked (inFlight_zero key.2)⟩

/-! ## C2, C6: rejected requests -/

/-- A request that fails validation never gets a worker and is answered 400. -/
theorem rejected {cfg : Config} {env : Env} {request : Option (List String)}
    {as : List Action} {s : State} (hrej : validate env request = none)
    (hrun : exec cfg env as (init cfg request) = some s) :
    s.workers = [] ∧ (∀ k, stepWorker cfg env k s = none) ∧
    (∀ r, s.response = some r → r = ⟨400, .empty⟩) ∧
    (s.pc = .finished → s.response = some ⟨400, .empty⟩) ∧
    (0 < cfg.iLimit → s.pc ≠ .finished → ∃ s', stepHandler cfg env s = some s') := by
  have hI := inv_reach hrun
  have hreq : s.request = request := exec_request hrun
  have hph := hI.phase
  rw [← hreq] at hrej
  have hws : s.workers = [] := by
    unfold Phase at hph
    split at hph
    · exact hph.1
    · exact hph.1
    · rw [hrej] at hph; simp at hph
    · rw [hrej] at hph; simp at hph
    · rw [hrej] at hph; simp at hph
    · rw [hrej] at hph; simp at hph
    · exact hph.1
    · obtain ⟨-, -, h | h⟩ := hph
      · exact h.1
      · rw [hrej] at h; simp at h
  refine ⟨hws, ?_, ?_, ?_, ?_⟩
  · intro k
    exact done_blocked (by rw [hws]; simp) k
  · intro r hr
    rcases response_cases hI hr with ⟨h, -⟩ | ⟨h, -⟩
    · exact h
    · rw [hrej] at h; simp at h
  · intro hfin
    simp only [Phase, hfin] at hph
    obtain ⟨-, -, h | h⟩ := hph
    · exact h.2.1
    · rw [hrej] at h; simp at h
  · intro hi hfin
    cases hpc : s.pc with
    | entry =>
      simp only [Phase, hpc] at hph
      have : s.limitInbound.count < s.limitInbound.size := by
        rw [hI.inSize, hph.2.2.2.1]; exact hi
      simp [stepHandler, hpc, Sem.acquire, this]
    | validating => simp [stepHandler, hpc, hrej]
    | dispatch i => simp only [Phase, hpc] at hph; rw [hrej] at hph; simp at hph
    | join j => simp only [Phase, hpc] at hph; rw [hrej] at hph; simp at hph
    | collect => simp only [Phase, hpc] at hph; rw [hrej] at hph; simp at hph
    | leaving b =>
      have : 0 < s.limitInbound.count := by
        cases b <;> simp only [Phase, hpc] at hph <;> omega
      simp [stepHandler, hpc, Sem.release, this]
    | finished => exact absurd hpc hfin

theorem validate_short {env : Env} {urls : List String}
    (hlen : urls.length ≤ urlCountLimit) (hrej : validate env (some urls) = none) :
    ∃ u ∈ urls, env.urlParse u ≠ none := by
  by_contra hno
  push_neg at hno
  rw [validate_ok hlen hno] at hrej
  simp at hrej

/-- C2. For every decoded list of more than 20 URLs, in every state that any
schedule reaches no worker exists and none can step, the only response ever
written is 400 with an empty body, the handler is never blocked, every
schedule is finite and the handler returns with that response.  A list of at
most 20 URLs, so one of exactly 20, is rejected only when some entry fails
`url.Parse`. -/
theorem url_count_limit (cfg : Config) (env : Env) (urls : List String)
    (as : List Action) (s : State)
    (hrun : exec cfg env as (init cfg (some urls)) = some s) :
    (urlCountLimit < urls.length →
      s.workers = [] ∧ (∀ k, stepWorker cfg env k s = none) ∧
      (∀ r, s.response = some r → r = ⟨400, .empty⟩) ∧
      (s.pc = .finished → s.response = some ⟨400, .empty⟩) ∧
      (0 < cfg.iLimit → s.pc ≠ .finished → ∃ s', stepHandler cfg env s = some s') ∧
      as.length ≤ 6 * urls.length + cfg.oLimit + 6) ∧
    (urls.length ≤ urlCountLimit → validate env (some urls) = none →
      ∃ u ∈ urls, env.urlParse u ≠ none) := by
  refine ⟨fun hlong => ?_, validate_short⟩
  obtain ⟨h1, h2, h3, h4, h5⟩ := rejected (validate_long hlong) hrun
  exact ⟨h1, h2, h3, h4, h5, by simpa [batchSize] using exec_length hrun⟩

/-- C6, as the code has it. For every decoded list with an entry, at any
index `k`, for which `url.Parse` returns an error, in every state that any schedule reaches no
worker exists for any URL of the list and none can step, the only response
ever written is 400 with an empty body, the handler is never blocked, every
schedule is finite and the handler returns with that response. -/
theorem bad_url_rejected (cfg : Config) (env : Env) (urls : List String)
    (k : Nat) (u err : String)
    (hk : urls[k]? = some u) (hbad : env.urlParse u = some err)
    (as : List Action) (s : State)
    (hrun : exec cfg env as (init cfg (some urls)) = some s) :
    s.workers = [] ∧ (∀ k, stepWorker cfg env k s = none) ∧
    (∀ r, s.response = some r → r = ⟨400, .empty⟩) ∧
    (s.pc = .finished → s.response = some ⟨400, .empty⟩) ∧
    (0 < cfg.iLimit → s.pc ≠ .finished → ∃ s', stepHandler cfg env s = some s') ∧
    as.length ≤ 6 * urls.length + cfg.oLimit + 6 := by
  obtain ⟨h1, h2, h3, h4, h5⟩ := rejected (validate_bad hk hbad) hrun
  exact ⟨h1, h2, h3, h4, h5, by simpa [batchSize] using exec_length hrun⟩

/-! ## C7: the size of a validated batch -/

/-- C7, as the code has it. While the handler dispatches, joins or collects,
the batch is the decoded request, it has at most 20 entries and every entry
passes `url.Parse`; there is no lower bound: the empty list passes
validation. -/
theorem validated_batch_size (cfg : Config) (env : Env) (request : Option (List String))
    (as : List Action) (s : State)
    (hrun : exec cfg env as (init cfg request) = some s) (hd : dispatching s) :
    request = some s.urls ∧ s.urls.length ≤ urlCountLimit ∧
    (∀ u ∈ s.urls, env.urlParse u = none) ∧ validate env (some []) = some [] := by
  have hI := inv_reach hrun
  have hreq : s.request = request := exec_request hrun
  have hph := hI.phase
  have hv : validate env s.request = some s.urls := by
    rcases hd with ⟨i, h⟩ | ⟨j, h⟩ | h
    · simp only [Phase, h] at hph; exact hph.2.2.2.2.1
    · simp only [Phase, h] at hph; exact hph.2.2.2.2.1
    · simp only [Phase, h] at hph; exact hph.2.2.2.2.1
  obtain ⟨h1, h2, h3⟩ := validate_some hv
  exact ⟨by rw [← hreq]; exact h1, h2, h3, validate_ok (by simp) (by simp)⟩

/-! ## C8: the counting limiter -/

theorem sem_run_inv {ops : List SemOp} {sem0 sem : Sem} (h0 : sem0.count ≤ sem0.size)
    (h : Sem.run ops sem0 = some sem) :
    sem.size = sem0.size ∧ sem.count ≤ sem.size ∧
    sem.count + ops.count .release = sem0.count + ops.count .acquire := by
  induction ops generalizing sem0 with
  | nil => simp [Sem.run] at h; subst h; simp [h0]
  | cons op ops ih =>
    simp only [Sem.run] at h
    cases hs : sem0.apply op with
    | none => rw [hs] at h; simp at h
    | some sem1 =>
      rw [hs] at h
      cases op with
      | acquire =>
        simp only [Sem.apply, Sem.acquire] at hs
        split at hs
        · simp at hs; subst hs
          obtain ⟨h1, h2, h3⟩ := @ih ⟨sem0.size, sem0.count + 1⟩ (by simp; omega) h
          simp at h1 h3 ⊢
          exact ⟨h1, h2, by omega⟩
        · simp at hs
      | release =>
        simp only [Sem.apply, Sem.release] at hs
        split at hs
        · simp at hs; subst hs
          obtain ⟨h1, h2, h3⟩ := @ih ⟨sem0.size, sem0.count - 1⟩ (by simp; omega) h
          simp at h1 h3 ⊢
          exact ⟨h1, h2, by omega⟩
        · simp at hs

/-- C8. For the limiter of `newSem(N)`, `N > 0`, after any sequence of
acquires and releases that each went through: the count is between 0 and `N`
and equals the acquires minus the releases; an acquire is enabled exactly
when the count is below `N` and raises it by one; a release is enabled
exactly when the count is above 0 and lowers it by one. -/
theorem sem_bounds (N : Nat) (_hN : 0 < N) (ops : List SemOp) (sem : Sem)
    (h : Sem.run ops (newSem N) = some sem) :
    sem.size = N ∧ sem.count ≤ N ∧
    sem.count + ops.count .release = ops.count .acquire ∧
    (sem.acquire.isSome ↔ sem.count < N) ∧
    (∀ sem', sem.acquire = some sem' → sem'.count = sem.count + 1 ∧ sem'.count ≤ N) ∧
    (sem.release.isSome ↔ 0 < sem.count) ∧
    (∀ sem', sem.release = some sem' → sem'.count + 1 = sem.count) := by
  obtain ⟨h1, h2, h3⟩ := @sem_run_inv ops (newSem N) sem (by simp [newSem]) h
  simp only [newSem] at h1 h3
  refine ⟨h1, by omega, by omega, ?_, ?_, ?_, ?_⟩
  · unfold Sem.acquire; rw [h1]; split <;> simp [*]
  · intro sem' hs
    unfold Sem.acquire at hs
    split at hs
    · simp at hs; subst hs; simp; omega
    · simp at hs
  · unfold Sem.release; split <;> simp [*]
  · intro sem' hs
    unfold Sem.release at hs
    split at hs
    · simp at hs; subst hs; simp; omega
    · simp at hs

/-! ## C3: two failing fetches -/

theorem sum_map_ge_one {α : Type} (f : α → Nat) {l : List α} {k : Nat} {a : α}
    (h : l[k]? = some a) : f a ≤ (l.map f).sum := by
  have := sum_map_set f l k a a h
  have hmem : f a ∈ l.map f := List.mem_map_of_mem f (List.mem_iff_getElem?.mpr ⟨k, h⟩)
  exact List.single_le_sum (fun _ _ => Nat.zero_le _) _ hmem

theorem sum_map_ge_two {α : Type} (f : α → Nat) {l : List α} {k1 k2 : Nat} {a b : α}
    (h1 : l[k1]? = some a) (h2 : l[k2]? = some b) (hne : k1 ≠ k2) :
    f a + f b ≤ (l.map f).sum := by
  induction l generalizing k1 k2 with
  | nil => simp at h1
  | cons x t ih =>
    cases k1 with
    | zero =>
      cases k2 with
      | zero => exact absurd rfl hne
      | succ k2 =>
        simp at h1 h2
        subst h1
        have := sum_map_ge_one f h2
        simp only [List.map_cons, List.sum_cons]
        omega
    | succ k1 =>
      cases k2 with
      | zero =>
        simp at h1 h2
        subst h2
        have := sum_map_ge_one f h1
        simp only [List.map_cons, List.sum_cons]
        omega
      | succ k2 =>
        simp at h1 h2
        have := ih h1 h2 (by omega)
        simp only [List.map_cons, List.sum_cons]
        omega

/-- With `errLimit = 1`, a validated batch in which the fetches of two
different indices fail is never answered: in every state that any schedule
reaches no response has been written and the handler has not returned, while
every schedule is finite.  Every run therefore ends in a state in which
nothing can step. -/
theorem two_failures_never_answered (cfg : Config) (env : Env) (urls : List String)
    (k1 k2 : Nat) (u1 u2 e1 e2 : String)
    (herr : cfg.errLimit = 1)
    (hval : validate env (some urls) = some urls)
    (h1 : urls[k1]? = some u1) (h2 : urls[k2]? = some u2) (hne : k1 ≠ k2)
    (hf1 : Fails env k1 u1 e1) (hf2 : Fails env k2 u2 e2)
    (as : List Action) (s : State)
    (hrun : exec cfg env as (init cfg (some urls)) = some s) :
    s.response = none ∧ s.pc ≠ .finished ∧
    as.length ≤ 6 * urls.length + cfg.oLimit + 6 := by
  have hI := inv_reach hrun
  have hreq : s.request = some urls := exec_request hrun
  have hnone : s.response = none := by
    cases hr : s.response with
    | none => rfl
    | some r =>
      exfalso
      rcases response_cases hI hr with ⟨-, h, -⟩ | ⟨hv, -, hlen, hfl, hrp⟩
      · rw [hreq, hval] at h; simp at h
      · have hu := answered_urls hreq hv
        have hdone := inFlight_zero hfl
        have hone : ∀ (k : Nat) (u e : String), urls[k]? = some u → Fails env k u e →
            ∃ w, s.workers[k]? = some w ∧ hasReported env w = 1 := by
          intro k u e hk hf
          have hlt : k < s.workers.length := by
            rw [hlen, hu]; exact (List.getElem?_eq_some.mp hk).1
          have hw : s.workers[k]? = some s.workers[k] := List.getElem?_eq_getElem hlt
          refine ⟨_, hw, ?_⟩
          obtain ⟨hwi, hwu⟩ := hI.wf k _ hw
          rw [hu, hk] at hwu
          simp at hwu
          have hd := hdone _ (List.mem_iff_getElem?.mpr ⟨k, hw⟩)
          unfold hasReported
          rw [hwi, ← hwu, failsB_of_fails hf, hd]
          simp
        obtain ⟨w1, hw1, hr1⟩ := hone k1 u1 e1 h1 hf1
        obtain ⟨w2, hw2, hr2⟩ := hone k2 u2 e2 h2 hf2
        have := sum_map_ge_two (hasReported env) hw1 hw2 hne
        unfold reports at hrp
        omega
  refine ⟨hnone, ?_, by simpa [batchSize] using exec_length hrun⟩
  intro hfin
  obtain ⟨r, hr⟩ := finished_response hI hfin
  rw [hnone] at hr
  simp at hr

/-! ## C9: the error sink -/

theorem after_select_done {cfg : Config} {env : Env} {s : State} (hI : Inv cfg env s)
    (h : beforeSelect s.pc = false) : ∀ w ∈ s.workers, w.pc = .done := by
  have hph := hI.phase
  cases hpc : s.pc with
  | entry => rw [hpc] at h; simp [beforeSelect] at h
  | validating => rw [hpc] at h; simp [beforeSelect] at h
  | dispatch i => rw [hpc] at h; simp [beforeSelect] at h
  | join j => rw [hpc] at h; simp [beforeSelect] at h
  | collect => rw [hpc] at h; simp [beforeSelect] at h
  | leaving b =>
    cases b
    · simp only [Phase, hpc] at hph
      rw [hph.1]; simp
    · simp only [Phase, hpc] at hph
      exact inFlight_zero hph.2.1
  | finished =>
    simp only [Phase, hpc] at hph
    exact inFlight_zero hph.1

theorem stepWorker_errs {cfg : Config} {env : Env} {s s' : State} {k : Nat}
    (h : stepWorker cfg env k s = some s') :
    s'.pc = s.pc ∧ s'.response = s.response ∧
    s'.errs = s.errs ++ (sent cfg (.worker k) s).toList := by
  unfold stepWorker at h
  unfold sent
  split at h
  · simp at h
  · rename_i w hk
    simp only [hk]
    split at h
    · rename_i hpc
      split at h <;> simp at h <;> subst h <;> simp [State.setPC, hpc]
    · rename_i hpc
      split at h <;> simp at h <;> subst h <;> simp [State.setPC, hpc]
    · rename_i body hpc
      simp at h; subst h; simp [State.setPC, hpc]
    · rename_i err hpc
      simp at h; subst h; simp [State.setPC, hpc]
    · rename_i msg hpc
      split at h
      · rename_i hlt
        simp at h; subst h; simp [State.setPC, hpc, hlt]
      · simp at h
    · rename_i hpc
      split at h
      · simp at h; subst h; simp [State.setPC, hpc]
      · simp at h
    · simp at h

theorem recorded_step {cfg : Config} {env : Env} {s0 s1 : State} {a : Action}
    (hI : Inv cfg env s0) (h : step cfg env a s0 = some s1) :
    (beforeSelect s0.pc = true → beforeSelect s1.pc = true →
      s1.errs = s0.errs ++ (sent cfg a s0).toList) ∧
    (beforeSelect s0.pc = true → beforeSelect s1.pc = false →
      sent cfg a s0 = none ∧
      ∀ m, s1.response = some ⟨500, .error m⟩ ↔ s0.errs.head? = some m) ∧
    (beforeSelect s0.pc = false →
      beforeSelect s1.pc = false ∧ sent cfg a s0 = none ∧ s1.response = s0.response) := by
  cases a with
  | worker k =>
    simp only [step] at h
    obtain ⟨h1, h2, h3⟩ := stepWorker_errs h
    refine ⟨fun _ _ => h3, ?_, ?_⟩
    · intro hb hn
      rw [h1, hb] at hn
      simp at hn
    · intro hn
      have := @done_blocked cfg env s0 (after_select_done hI hn) k
      rw [this] at h
      simp at h
  | handler =>
    simp only [step] at h
    have hph := hI.phase
    have hs : sent cfg .handler s0 = none := rfl
    rw [hs]
    unfold stepHandler at h
    split at h
    · rename_i hpc
      split at h
      · simp at h; subst h
        simp [hpc, beforeSelect]
      · simp at h
    · rename_i hpc
      simp only [Phase, hpc] at hph
      split at h
      · simp at h; subst h
        simp [hpc, beforeSelect, hph.2.1]
      · simp at h; subst h
        simp [hpc, beforeSelect, hph.2.1]
    · rename_i i hpc
      split at h
      · split at h
        · simp at h; subst h
          simp [hpc, beforeSelect]
        · simp at h
      · simp at h; subst h
        simp [hpc, beforeSelect]
    · rename_i j hpc
      split at h
      · split at h
        · simp at h; subst h
          simp [hpc, beforeSelect]
        · simp at h
      · simp at h; subst h
        simp [hpc, beforeSelect]
    · rename_i hpc
      split at h
      · rename_i err rest herrs
        simp at h; subst h
        simp [hpc, beforeSelect, herrs]
      · rename_i herrs
        simp at h; subst h
        simp [hpc, beforeSelect, herrs]
    · rename_i b hpc
      split at h
      · simp at h; subst h
        simp [hpc, beforeSelect]
      · simp at h
    · simp at h

theorem recorded_exec {cfg : Config} {env : Env} (as : List Action) :
    ∀ (s0 s : State), Inv cfg env s0 → exec cfg env as s0 = some s →
    (beforeSelect s0.pc = true →
      (beforeSelect s.pc = true → s.errs = s0.errs ++ recorded cfg env as s0) ∧
      (beforeSelect s.pc = false →
        (s0.errs ++ recorded cfg env as s0).length ≤ cfg.errLimit ∧
        ∀ m, s.response = some ⟨500, .error m⟩ ↔
          (s0.errs ++ recorded cfg env as s0).head? = some m)) ∧
    (beforeSelect s0.pc = false →
      recorded cfg env as s0 = [] ∧ s.response = s0.response ∧
      beforeSelect s.pc = false) := by
  induction as with
  | nil =>
    intro s0 s hI h
    simp [exec] at h
    subst h
    refine ⟨fun hb => ⟨fun _ => by simp [recorded], fun hn => ?_⟩, fun hn => ?_⟩
    · rw [hb] at hn; simp at hn
    · exact ⟨rfl, rfl, hn⟩
  | cons a as ih =>
    intro s0 s hI h
    simp only [exec] at h
    cases hs : step cfg env a s0 with
    | none => rw [hs] at h; simp at h
    | some s1 =>
      rw [hs] at h
      simp only [Option.some_bind] at h
      have hI1 := inv_step hI hs
      obtain ⟨ih1, ih2⟩ := ih s1 s hI1 h
      obtain ⟨st1, st2, st3⟩ := recorded_step hI hs
      have hrec : recorded cfg env (a :: as) s0
          = (sent cfg a s0).toList ++ recorded cfg env as s1 := by
        simp [recorded, hs]
      rw [hrec]
      refine ⟨fun hb => ?_, fun hn => ?_⟩
      · cases hb1 : beforeSelect s1.pc with
        | true =>
          obtain ⟨i1, i2⟩ := ih1 hb1
          have he := st1 hb hb1
          rw [he] at i1 i2
          simp only [List.append_assoc] at i1 i2
          exact ⟨i1, i2⟩
        | false =>
          obtain ⟨j1, j2, j3⟩ := ih2 hb1
          obtain ⟨t1, t2⟩ := st2 hb hb1
          refine ⟨fun hbs => ?_, fun _ => ?_⟩
          · rw [j3] at hbs; simp at hbs
          · rw [t1, j1, j2]
            simp only [Option.toList, List.append_nil]
            exact ⟨hI.errsLe, t2⟩
      · obtain ⟨t1, t2, t3⟩ := st3 hn
        obtain ⟨j1, j2, j3⟩ := ih2 t1
        rw [t2, j1]
        exact ⟨rfl, by rw [j2, t3], j3⟩

/-- C9. With `errLimit = 1`, along every schedule at most one message is
ever put into `errs` and `errs` never holds more than one; until the handler
runs its `select`, `errs` is exactly what was put in (nothing is overwritten
or dropped, and a later failing worker never gets its send through); and the
handler writes a 500 response with message `m` exactly when it has run the
`select` and `m` is the message that was put in first. -/
theorem first_error_wins (cfg : Config) (env : Env) (request : Option (List String))
    (as : List Action) (s : State)
    (herr : cfg.errLimit = 1)
    (hrun : exec cfg env as (init cfg request) = some s) :
    (recorded cfg env as (init cfg request)).length ≤ 1 ∧
    s.errs.length ≤ 1 ∧
    (beforeSelect s.pc = true → s.errs = recorded cfg env as (init cfg request)) ∧
    (∀ m, s.response = some ⟨500, .error m⟩ ↔
      (beforeSelect s.pc = false ∧
        (recorded cfg env as (init cfg request)).head? = some m)) := by
  have hI := inv_reach hrun
  have h0 : beforeSelect (init cfg request).pc = true := rfl
  obtain ⟨h1, h2⟩ := (recorded_exec as _ _ (inv_init cfg env request) hrun).1 h0
  have he : (init cfg request).errs = [] := rfl
  rw [he] at h1 h2
  simp only [List.nil_append] at h1 h2
  have hle := hI.errsLe
  rw [herr] at hle h2
  cases hb : beforeSelect s.pc with
  | true =>
    have h3 := h1 hb
    refine ⟨by rw [← h3]; exact hle, hle, fun _ => h3, ?_⟩
    intro m
    have hnone : s.response = none := by
      have hph := hI.phase
      cases hpc : s.pc with
      | entry => simp only [Phase, hpc] at hph; exact hph.2.2.1
      | validating => simp only [Phase, hpc] at hph; exact hph.2.2.1
      | dispatch i => simp only [Phase, hpc] at hph; exact hph.2.2.1
      | join j => simp only [Phase, hpc] at hph; exact hph.2.2.1
      | collect => simp only [Phase, hpc] at hph; exact hph.2.2.1
      | leaving b => rw [hpc] at hb; simp [beforeSelect] at hb
      | finished => rw [hpc] at hb; simp [beforeSelect] at hb
    rw [hnone]
    simp
  | false =>
    obtain ⟨h3, h4⟩ := h2 hb
    refine ⟨h3, hle, fun hh => by simp at hh, ?_⟩
    intro m
    rw [h4 m]
    simp

/-! ## Concrete runs -/

theorem happy_path_witness :
    ∃ s, exec mainConfig envAll scheduleTwo (init mainConfig (some twoURLs)) = some s ∧
      s.pc = .finished ∧
      s.response = some ⟨200, .results ["body of http://a", "body of http://b"]⟩ ∧
      (s.pc = .finished → s.response = some ⟨200, .results s.results⟩) :=
  ⟨_, rfl, rfl, rfl,
    (happy_path mainConfig envAll twoURLs (by decide) (by decide) (by decide)
      (fun _ _ => rfl) (fun _ _ _ => ⟨_, rfl⟩) scheduleTwo _ rfl).2.2.1⟩

theorem single_failure_witness :
    ∃ s, exec mainConfig envOneDown scheduleOneDown (init mainConfig (some twoURLs)) = some s ∧
      s.pc = .finished ∧
      s.results = ["body of http://a", ""] ∧
      (s.pc = .finished → s.response =
        some ⟨500, .error ("build request to " ++ "http://b" ++ ": " ++ "connection refused")⟩) :=
  ⟨_, rfl, rfl, rfl,
    (single_failure mainConfig envOneDown twoURLs 1 "http://b" "connection refused"
      (by decide) (by decide) (by decide) (by decide)
      (fun _ _ => rfl) rfl rfl
      (fun i u _ hne => ⟨"body of " ++ u, by simp [envOneDown, hne]⟩)
      scheduleOneDown _ rfl).2.2.1⟩

/-- C3, at a batch of two URLs whose fetches both fail. Worker 0 reports and
returns; worker 1 stands at `errs <- ...` with the buffer of capacity 1
full; the handler stands at its fourth re-acquire with the limiter full.
No response has been written and no goroutine can step. -/
theorem two_failures_deadlock :
    ∃ s, exec mainConfig envDown scheduleStuck (init mainConfig (some twoURLs)) = some s ∧
      s.pc = .join 3 ∧ s.incr = ⟨4, 4⟩ ∧
      s.workers = [⟨0, "http://a", .done⟩,
        ⟨1, "http://b", .sending "build request to http://b: connection refused"⟩] ∧
      s.errs = ["build request to http://a: connection refused"] ∧
      s.response = none ∧ ∀ a, step mainConfig envDown a s = none := by
  refine ⟨_, rfl, rfl, rfl, rfl, rfl, rfl, ?_⟩
  intro a
  cases a with
  | handler => rfl
  | worker k =>
    match k with
    | 0 => rfl
    | 1 => rfl
    | k + 2 => rfl

theorem two_failures_witness :
    ∃ s, exec mainConfig envDown scheduleStuck (init mainConfig (some twoURLs)) = some s ∧
      s.response = none ∧ s.pc ≠ .finished :=
  ⟨_, rfl,
    (two_failures_never_answered mainConfig envDown twoURLs 0 1 "http://a" "http://b"
      "connection refused" "connection refused" rfl (by decide) rfl rfl (by decide)
      (Or.inr ⟨rfl, rfl⟩) (Or.inr ⟨rfl, rfl⟩) scheduleStuck _ rfl).1,
    (two_failures_never_answered mainConfig envDown twoURLs 0 1 "http://a" "http://b"
      "connection refused" "connection refused" rfl (by decide) rfl rfl (by decide)
      (Or.inr ⟨rfl, rfl⟩) (Or.inr ⟨rfl, rfl⟩) scheduleStuck _ rfl).2.1⟩

theorem outbound_cap_witness :
    ∃ s, exec mainConfig envAll (scheduleTwo.take 6) (init mainConfig (some twoURLs)) = some s ∧
      inFlight s.workers = 2 ∧
      inFlight s.workers ≤ mainConfig.oLimit ∧ fetching s.workers ≤ mainConfig.oLimit :=
  ⟨_, rfl, rfl,
    outbound_cap mainConfig envAll (some twoURLs) (scheduleTwo.take 6) _ rfl⟩

theorem join_barrier_witness :
    ∃ s, exec mainConfig envAll (scheduleTwo.take 18) (init mainConfig (some twoURLs)) = some s ∧
      pastJoin s ∧
      s.workers.length = s.urls.length ∧ (∀ w ∈ s.workers, w.pc = .done) ∧
      (∀ k, stepWorker mainConfig envAll k s = none) :=
  ⟨_, rfl, Or.inl rfl,
    join_barrier mainConfig envAll (some twoURLs) (scheduleTwo.take 18) _ rfl (Or.inl rfl)⟩

theorem url_count_limit_witness :
    ∃ s, exec mainConfig envAll [.handler, .handler, .handler]
        (init mainConfig (some (List.replicate 21 "http://a"))) = some s ∧
      urlCountLimit < (List.replicate 21 "http://a").length ∧
      s.pc = .finished ∧ s.workers = [] ∧ s.response = some ⟨400, .empty⟩ ∧
      (validate envAll (some (List.replicate 20 "http://a")) = some (List.replicate 20 "http://a")) :=
  ⟨_, rfl, by decide,
    rfl,
    ((url_count_limit mainConfig envAll (List.replicate 21 "http://a")
      [.handler, .handler, .handler] _ rfl).1 (by decide)).1,
    ((url_count_limit mainConfig envAll (List.replicate 21 "http://a")
      [.handler, .handler, .handler] _ rfl).1 (by decide)).2.2.2.1 rfl,
    by decide⟩

theorem bad_url_rejected_witness :
    ∃ s, exec mainConfig envStrict [.handler, .handler, .handler]
        (init mainConfig (some ["http://a", "::", "http://c"])) = some s ∧
      s.pc = .finished ∧ s.workers = [] ∧ s.response = some ⟨400, .empty⟩ :=
  ⟨_, rfl, rfl,
    (bad_url_rejected mainConfig envStrict ["http://a", "::", "http://c"] 1 "::"
      "missing protocol scheme" rfl (by decide)
      [.handler, .handler, .handler] _ rfl).1,
    (bad_url_rejected mainConfig envStrict ["http://a", "::", "http://c"] 1 "::"
      "missing protocol scheme" rfl (by decide)
      [.handler, .handler, .handler] _ rfl).2.2.2.1 rfl⟩

/-- C6, as stated, fails at the batch `[""]`. The empty string has no scheme,
so it is not a valid URL in the sense of the spec, but `url.Parse` accepts
it: the batch passes validation, the handler spawns a worker for it, and
with a transport that answers the request the response is 200, not 400. -/
theorem schemeless_url_dispatched :
    hasScheme "" = false ∧ envStrict.urlParse "" = none ∧
    [""].length ≤ urlCountLimit ∧ validate envStrict (some [""]) = some [""] ∧
    (∃ s, exec mainConfig envStrict (scheduleOne.take 3) (init mainConfig (some [""])) = some s ∧
      s.workers = [⟨0, "", .ready⟩] ∧ s.response = none) ∧
    (∃ s, exec mainConfig envStrict scheduleOne (init mainConfig (some [""])) = some s ∧
      s.pc = .finished ∧ s.response = some ⟨200, .results ["body of "]⟩) :=
  ⟨rfl, rfl, by decide, rfl, ⟨_, rfl, rfl, rfl⟩, ⟨_, rfl, rfl, rfl⟩⟩

/-- C7, as stated, fails at the empty list: it passes validation, the handler
goes through dispatch and join with a batch of length 0 and answers 200 with
an empty array. -/
theorem empty_batch_accepted :
    validate envAll (some []) = some [] ∧ ¬ (1 ≤ ([] : List String).length) ∧
    (∃ s, exec mainConfig envAll (scheduleEmpty.take 2) (init mainConfig (some [])) = some s ∧
      dispatching s ∧ s.urls.length = 0) ∧
    (∃ s, exec mainConfig envAll scheduleEmpty (init mainConfig (some [])) = some s ∧
      s.pc = .finished ∧ s.response = some ⟨200, .results []⟩) :=
  ⟨rfl, by decide, ⟨_, rfl, Or.inl ⟨0, rfl⟩, rfl⟩, ⟨_, rfl, rfl, rfl⟩⟩

theorem validated_batch_size_witness :
    ∃ s, exec mainConfig envAll (scheduleTwo.take 3) (init mainConfig (some twoURLs)) = some s ∧
      dispatching s ∧
      some twoURLs = some s.urls ∧ s.urls.length ≤ urlCountLimit ∧
      (∀ u ∈ s.urls, envAll.urlParse u = none) ∧ validate envAll (some []) = some [] :=
  ⟨_, rfl, Or.inl ⟨1, rfl⟩,
    validated_batch_size mainConfig envAll (some twoURLs) (scheduleTwo.take 3) _ rfl
      (Or.inl ⟨1, rfl⟩)⟩

theorem sem_bounds_witness :
    0 < oLimit ∧
    ∃ sem, Sem.run [.acquire, .acquire, .release, .acquire] (newSem oLimit) = some sem ∧
      sem.count = 2 ∧ sem.count ≤ oLimit ∧
      (newSem oLimit).release = none ∧
      (Sem.run [.acquire, .acquire, .acquire, .acquire, .acquire] (newSem oLimit) = none) :=
  ⟨by decide, _, rfl, rfl,
    (sem_bounds oLimit (by decide) [.acquire, .acquire, .release, .acquire] _ rfl).2.1,
    rfl, rfl⟩

theorem first_error_wins_witness :
    ∃ s, exec mainConfig envOneDown scheduleOneDown (init mainConfig (some twoURLs)) = some s ∧
      mainConfig.errLimit = 1 ∧
      recorded mainConfig envOneDown scheduleOneDown (init mainConfig (some twoURLs))
        = ["build request to http://b: connection refused"] ∧
      s.response = some ⟨500, .error "build request to http://b: connection refused"⟩ :=
  ⟨_, rfl, rfl, rfl,
    ((first_error_wins mainConfig envOneDown (some twoURLs) scheduleOneDown _ rfl rfl).2.2.2
      "build request to http://b: connection refused").mpr ⟨rfl, rfl⟩⟩


end Afftest
